import Mathlib

/-!
Shallow embedding of the Wave Function Collapse solver from src/main.py.

The translation keeps names and control structure of the Python source:
* Python sets of tiles become Finset String;
* the weights dict becomes an association list List (Tile × Nat) whose
  enumeration order models dict insertion order;
* each call of random.random() is modelled by an explicit rational
  parameter in [0, 1); the float Shannon-entropy values (plus tie-break
  noise) are abstracted into a rational-valued function parameter, while
  the error condition of shannon_entropy (KeyError / log of zero) is
  modelled exactly;
* fallible operations (set.remove on an absent element, indexing an empty
  list, assertion failures) return Option / an explicit error outcome;
* the while loops of propagate and run are given explicit fuel; running
  out of fuel is distinguished from a run-time error, so termination
  facts can be stated as theorems.
All grid accesses performed by the algorithm are proved in-bounds, so the
out-of-bounds behaviour of Wavefunction.get (here: the empty set) is
never consulted by any theorem.
-/

namespace WFC

abbrev Tile := String
abbrev Coordinates := ℤ × ℤ
abbrev Direction := ℤ × ℤ

def UP : Direction := (1, 0)
def DOWN : Direction := (-1, 0)
def LEFT : Direction := (0, -1)
def RIGHT : Direction := (0, 1)

def DIRS : List Direction := [UP, DOWN, LEFT, RIGHT]

abbrev Compat := Tile × Tile × Direction
abbrev Weights := List (Tile × ℕ)
abbrev Coefficients := Finset Tile

structure CompatibilityOracle where
  data : Finset Compat
deriving DecidableEq

def CompatibilityOracle.check (o : CompatibilityOracle) (tile1 tile2 : Tile) (direction : Direction) : Bool :=
  decide ((tile1, tile2, direction) ∈ o.data)

structure Wavefunction where
  coefficient_matrix : List (List Coefficients)
  weights : Weights
deriving DecidableEq

def Wavefunction.init_coefficient_matrix (size : ℕ × ℕ) (tiles : List Tile) : List (List Coefficients) :=
  List.replicate size.2 (List.replicate size.1 tiles.toFinset)

/-- Wavefunction.mk of the source (renamed: mk is taken by the structure constructor). -/
def Wavefunction.init (size : ℕ × ℕ) (weights : Weights) : Wavefunction :=
  ⟨Wavefunction.init_coefficient_matrix size (weights.map Prod.fst), weights⟩

def Wavefunction.get (wf : Wavefunction) (co : Coordinates) : Coefficients :=
  if 0 ≤ co.1 ∧ 0 ≤ co.2 then
    (wf.coefficient_matrix.getD co.1.toNat []).getD co.2.toNat ∅
  else ∅

/-- Writing one cell of the coefficient matrix (the mutation in collapse/constrain). -/
def Wavefunction.setCell (wf : Wavefunction) (co : Coordinates) (s : Coefficients) : Wavefunction :=
  if 0 ≤ co.1 ∧ 0 ≤ co.2 then
    Wavefunction.mk
      (wf.coefficient_matrix.set co.1.toNat
        ((wf.coefficient_matrix.getD co.1.toNat []).set co.2.toNat s))
      wf.weights
  else wf

/-- get_collapsed: asserts the cell has exactly one option, returns it (the
element extracted from a singleton set is unique, so min' is next(iter(s)));
failure is none. -/
def Wavefunction.get_collapsed (wf : Wavefunction) (co : Coordinates) : Option Tile :=
  if h : (wf.get co).card = 1 then
    some ((wf.get co).min' (Finset.card_pos.mp (by omega)))
  else none

/-- get_all_collapsed; the Python code indexes coefficient_matrix[0], so an
empty matrix is an error (none). -/
def Wavefunction.get_all_collapsed (wf : Wavefunction) : Option (List (List Tile)) :=
  match wf.coefficient_matrix with
  | [] => none
  | row0 :: _ =>
    (List.range wf.coefficient_matrix.length).mapM (fun (y : ℕ) =>
      (List.range row0.length).mapM (fun (x : ℕ) => wf.get_collapsed ((y : ℤ), (x : ℤ))))

/-- The error condition of shannon_entropy: it raises unless every tile present
has a weight entry, every such weight is positive (weight * log weight), and the
weight sum is positive (log of the sum).  The float value itself is abstracted. -/
def weightPos (weights : Weights) (t : Tile) : Bool :=
  match weights.lookup t with
  | some w => decide (0 < w)
  | none => false

def Wavefunction.entropy_defined (wf : Wavefunction) (co : Coordinates) : Bool :=
  decide ((wf.get co).Nonempty) &&
    decide (∀ t ∈ wf.get co, weightPos wf.weights t = true)

def Wavefunction.is_fully_collapsed (wf : Wavefunction) : Bool :=
  wf.coefficient_matrix.all (fun row => row.all (fun sq => decide (sq.card ≤ 1)))

/-- The weighted-selection walk of collapse: subtract each weight from the
draw, pick the first tile where the remainder goes negative; ch is the
default chosen = filtered_tiles_with_weights[0][0]. -/
def walkChoose (rand : ℚ) (l : List (Tile × ℕ)) (ch : Tile) : Tile :=
  match l with
  | [] => ch
  | (t, w) :: rest => if rand - (w : ℚ) < 0 then t else walkChoose (rand - (w : ℚ)) rest ch

/-- collapse; r models the value of random.random().  Failure (indexing
filtered_tiles_with_weights[0] when no weighted tile is possible) is none. -/
def Wavefunction.collapse (wf : Wavefunction) (r : ℚ) (co : Coordinates) : Option Wavefunction :=
  let options := wf.get co
  let filtered := wf.weights.filter (fun tw => decide (tw.1 ∈ options))
  match filtered with
  | [] => none
  | (t0, _) :: _ =>
    let total : ℕ := (filtered.map (fun tw => tw.2)).sum
    let chosen := walkChoose (r * (total : ℚ)) filtered t0
    some (wf.setCell co {chosen})

/-- constrain; Python set.remove raises KeyError when the tile is absent (none). -/
def Wavefunction.constrain (wf : Wavefunction) (co : Coordinates) (forbidden_tile : Tile) :
    Option Wavefunction :=
  if forbidden_tile ∈ wf.get co then
    some (wf.setCell co ((wf.get co).erase forbidden_tile))
  else none

def valid_dirs (cur_co_ords : Coordinates) (matrix_size : ℕ × ℕ) : List Direction :=
  (if cur_co_ords.1 < (matrix_size.2 : ℤ) - 1 then [UP] else []) ++
  (if 0 < cur_co_ords.1 then [DOWN] else []) ++
  (if 0 < cur_co_ords.2 then [LEFT] else []) ++
  (if cur_co_ords.2 < (matrix_size.1 : ℤ) - 1 then [RIGHT] else [])

structure Model where
  output_size : ℕ × ℕ
  compatibility_oracle : CompatibilityOracle
  wavefunction : Wavefunction
deriving DecidableEq

def Model.init (output_size : ℕ × ℕ) (weights : Weights) (oracle : CompatibilityOracle) : Model :=
  ⟨output_size, oracle, Wavefunction.init output_size weights⟩

/-- Propagate's support test: whether other_tile is compatible with any tile
still possible at the current location. -/
def supportedBy (oracle : CompatibilityOracle) (curTiles : Coefficients) (t : Tile)
    (d : Direction) : Prop :=
  ∃ s ∈ curTiles, oracle.check s t d = true

instance (oracle : CompatibilityOracle) (curTiles : Coefficients) (t : Tile) (d : Direction) :
    Decidable (supportedBy oracle curTiles t d) := by
  unfold supportedBy; infer_instance

/-- One popped cell of propagate: walk its valid directions, filter each
neighbour down to the supported tiles, and push the neighbour once per
removed tile (Python appends to the stack inside the removal loop). -/
def processDirs (oracle : CompatibilityOracle) (curTiles : Coefficients) (cur : Coordinates)
    (ds : List Direction) (wf : Wavefunction) (pushed : List Coordinates) :
    Wavefunction × List Coordinates :=
  match ds with
  | [] => (wf, pushed)
  | d :: rest =>
    let other : Coordinates := (cur.1 + d.1, cur.2 + d.2)
    let otherSet := wf.get other
    let newSet := otherSet.filter (fun t => supportedBy oracle curTiles t d)
    processDirs oracle curTiles cur rest (wf.setCell other newSet)
      (pushed ++ List.replicate (otherSet.card - newSet.card) other)

/-- The worklist loop of propagate, with explicit fuel; none means the fuel
ran out (which the termination theorem rules out for sufficient fuel). -/
def propagateAux (oracle : CompatibilityOracle) (size : ℕ × ℕ) :
    ℕ → List Coordinates → Wavefunction → Option Wavefunction
  | _, [], wf => some wf
  | 0, _ :: _, _ => none
  | fuel + 1, cur :: rest, wf =>
    let pr := processDirs oracle (wf.get cur) cur (valid_dirs cur size) wf []
    propagateAux oracle size fuel (pr.2 ++ rest) pr.1

/-- Total number of possibilities left in the matrix (the termination measure). -/
def totalCount (wf : Wavefunction) : ℕ :=
  (wf.coefficient_matrix.map (fun row => (row.map Finset.card).sum)).sum

/-- Model.propagate: the loop always terminates within the fuel chosen here
(proved below), so the fallback branch is dead code. -/
def Model.propagate (m : Model) (co : Coordinates) : Wavefunction :=
  match propagateAux m.compatibility_oracle m.output_size
      (totalCount m.wavefunction + 2) [co] m.wavefunction with
  | some wf => wf
  | none => m.wavefunction

/-- The scan order of min_entropy_co_ords: y from 0 to height-1, x from 0 to width-1. -/
def gridCells (size : ℕ × ℕ) : List Coordinates :=
  (List.range size.2).flatMap
    (fun (y : ℕ) => (List.range size.1).map (fun (x : ℕ) => ((y : ℤ), (x : ℤ))))

/-- One scan step of min_entropy_co_ords; the state is (best co_ords so far,
least noisy entropy so far).  noise c models entropy(c) - random()/1000. -/
def minEntropyStep (wf : Wavefunction) (noise : Coordinates → ℚ) (st : Coordinates × Option ℚ)
    (c : Coordinates) : Coordinates × Option ℚ :=
  if (wf.get c).card = 1 then st
  else
    match st.2 with
    | none => (c, some (noise c))
    | some mE => if noise c < mE then (c, some (noise c)) else st

/-- min_entropy_co_ords; an undefined shannon_entropy at any scanned,
non-collapsed cell is a run-time error (none). -/
def Model.min_entropy_co_ords (m : Model) (noise : Coordinates → ℚ) : Option Coordinates :=
  let cells := gridCells m.output_size
  if cells.any (fun c =>
      decide ((m.wavefunction.get c).card ≠ 1) && !(m.wavefunction.entropy_defined c)) then
    none
  else
    some (cells.foldl (minEntropyStep m.wavefunction noise) ((0, 0), none)).1

def Model.iterate (m : Model) (noise : Coordinates → ℚ) (r : ℚ) : Option Model :=
  match m.min_entropy_co_ords noise with
  | none => none
  | some co =>
    match m.wavefunction.collapse r co with
    | none => none
    | some wf1 =>
      some ⟨m.output_size, m.compatibility_oracle,
        Model.propagate ⟨m.output_size, m.compatibility_oracle, wf1⟩ co⟩

inductive RunOutcome where
  | done (g : List (List Tile))
  | err
  | fuelOut
deriving DecidableEq

/-- The run loop with explicit fuel; each loop iteration consumes the next
noise function and draw of the ambient randomness. -/
def finishRun (m : Model) : RunOutcome :=
  match m.wavefunction.get_all_collapsed with
  | some g => RunOutcome.done g
  | none => RunOutcome.err

def Model.runAux (noise : ℕ → Coordinates → ℚ) (draws : ℕ → ℚ) :
    ℕ → ℕ → Model → RunOutcome
  | _, 0, m => if m.wavefunction.is_fully_collapsed then finishRun m else RunOutcome.fuelOut
  | k, fuel + 1, m =>
    if m.wavefunction.is_fully_collapsed then finishRun m
    else
      match m.iterate (noise k) (draws k) with
      | none => RunOutcome.err
      | some m1 => Model.runAux noise draws (k + 1) fuel m1

/-- A sequence of direct Wavefunction mutations (the operations a run performs). -/
inductive WfOp where
  | collapseOp (r : ℚ) (co : Coordinates)
  | constrainOp (co : Coordinates) (t : Tile)

def applyOp (wf : Wavefunction) : WfOp → Option Wavefunction
  | WfOp.collapseOp r co => wf.collapse r co
  | WfOp.constrainOp co t => wf.constrain co t

def applyOps (wf : Wavefunction) : List WfOp → Option Wavefunction
  | [] => some wf
  | op :: rest =>
    match applyOp wf op with
    | none => none
    | some wf1 => applyOps wf1 rest

/-! ### Basic facts about cell access and update -/

/-- The coordinate denotes an actual cell of the matrix. -/
def Wavefunction.cellExists (wf : Wavefunction) (co : Coordinates) : Prop :=
  0 ≤ co.1 ∧ 0 ≤ co.2 ∧ co.1.toNat < wf.coefficient_matrix.length ∧
    co.2.toNat < (wf.coefficient_matrix.getD co.1.toNat []).length

instance (wf : Wavefunction) (co : Coordinates) : Decidable (wf.cellExists co) := by
  unfold Wavefunction.cellExists; infer_instance

/-- The matrix has the shape announced by (width, height). -/
def WellFormed (size : ℕ × ℕ) (wf : Wavefunction) : Prop :=
  wf.coefficient_matrix.length = size.2 ∧
    ∀ row ∈ wf.coefficient_matrix, row.length = size.1

instance (size : ℕ × ℕ) (wf : Wavefunction) : Decidable (WellFormed size wf) := by
  unfold WellFormed; infer_instance

/-- The coordinate is inside the output grid. -/
def inB (size : ℕ × ℕ) (co : Coordinates) : Prop :=
  0 ≤ co.1 ∧ co.1 < (size.2 : ℤ) ∧ 0 ≤ co.2 ∧ co.2 < (size.1 : ℤ)

instance (size : ℕ × ℕ) (co : Coordinates) : Decidable (inB size co) := by
  unfold inB; infer_instance

theorem List.getD_of_ge {α : Type} (l : List α) (i : ℕ) (d : α) (h : l.length ≤ i) :
    l.getD i d = d := by
  simp [List.getD_eq_getElem?_getD, List.getElem?_eq_none (by omega : l.length ≤ i)]

theorem List.getD_mem {α : Type} (l : List α) (i : ℕ) (d : α) (h : i < l.length) :
    l.getD i d ∈ l := by
  have := List.getElem_mem h
  simp [List.getD_eq_getElem?_getD, List.getElem?_eq_getElem h]

theorem List.getD_replicate_elt {α : Type} (n : ℕ) (a d : α) (i : ℕ) :
    (List.replicate n a).getD i d = if i < n then a else d := by
  simp only [List.getD_eq_getElem?_getD, List.getElem?_replicate]
  split <;> rfl

theorem Wavefunction.get_def (wf : Wavefunction) (co : Coordinates) :
    wf.get co =
      if 0 ≤ co.1 ∧ 0 ≤ co.2 then
        (wf.coefficient_matrix.getD co.1.toNat []).getD co.2.toNat ∅
      else ∅ := rfl

theorem List.getD_set_self {α : Type} (l : List α) (i : ℕ) (a d : α) (h : i < l.length) :
    (l.set i a).getD i d = a := by
  simp [List.getD_eq_getElem?_getD, List.getElem?_set_self (by omega : i < l.length)]

theorem List.getD_set_ne {α : Type} (l : List α) (i j : ℕ) (a d : α) (h : i ≠ j) :
    (l.set i a).getD j d = l.getD j d := by
  simp [List.getD_eq_getElem?_getD, List.getElem?_set_ne h]

theorem Wavefunction.setCell_weights (wf : Wavefunction) (co : Coordinates) (s : Coefficients) :
    (wf.setCell co s).weights = wf.weights := by
  unfold Wavefunction.setCell; split <;> rfl

theorem Wavefunction.get_of_not_cellExists (wf : Wavefunction) (co : Coordinates)
    (h : ¬ wf.cellExists co) : wf.get co = ∅ := by
  unfold Wavefunction.cellExists at h
  unfold Wavefunction.get
  split
  case isFalse => rfl
  case isTrue hg =>
    rcases Nat.lt_or_ge co.1.toNat wf.coefficient_matrix.length with hi | hi
    · rcases Nat.lt_or_ge co.2.toNat (wf.coefficient_matrix.getD co.1.toNat []).length with hj | hj
      · exact absurd ⟨hg.1, hg.2, hi, hj⟩ h
      · exact List.getD_of_ge _ _ _ hj
    · rw [List.getD_of_ge _ _ _ hi]
      rfl

theorem Wavefunction.cellExists_of_get_ne_empty (wf : Wavefunction) (co : Coordinates)
    (h : wf.get co ≠ ∅) : wf.cellExists co := by
  by_contra hc
  exact h (wf.get_of_not_cellExists co hc)

/-- Master lemma: reading any cell after writing one. -/
theorem Wavefunction.get_setCell (wf : Wavefunction) (co : Coordinates) (s : Coefficients)
    (co' : Coordinates) :
    (wf.setCell co s).get co' = if co' = co ∧ wf.cellExists co then s else wf.get co' := by
  unfold Wavefunction.setCell
  split
  case isFalse hco =>
    have hn : ¬ (co' = co ∧ wf.cellExists co) := by
      rintro ⟨rfl, he⟩; exact hco ⟨he.1, he.2.1⟩
    rw [if_neg hn]
  case isTrue hco =>
    rw [Wavefunction.get_def, Wavefunction.get_def]
    dsimp only
    by_cases hg' : 0 ≤ co'.1 ∧ 0 ≤ co'.2
    · rw [if_pos hg', if_pos hg']
      by_cases hi : co'.1.toNat = co.1.toNat
      · by_cases hilen : co.1.toNat < wf.coefficient_matrix.length
        · rw [hi, List.getD_set_self _ _ _ _ hilen]
          by_cases hj : co'.2.toNat = co.2.toNat
          · have hcoeq : co' = co := by
              have h1 : co'.1 = co.1 := by omega
              have h2 : co'.2 = co.2 := by omega
              exact Prod.ext h1 h2
            by_cases hjlen : co.2.toNat < (wf.coefficient_matrix.getD co.1.toNat []).length
            · rw [hj, List.getD_set_self _ _ _ _ hjlen,
                if_pos ⟨hcoeq, hco.1, hco.2, hilen, hjlen⟩]
            · have hn : ¬ (co' = co ∧ wf.cellExists co) := by
                rintro ⟨_, he⟩; exact hjlen he.2.2.2
              rw [List.set_eq_of_length_le (by omega), if_neg hn]
          · have hn : ¬ (co' = co ∧ wf.cellExists co) := by
              rintro ⟨rfl, _⟩; exact hj rfl
            rw [List.getD_set_ne _ _ _ _ _ (fun hh => hj hh.symm), if_neg hn]
        · have hn : ¬ (co' = co ∧ wf.cellExists co) := by
            rintro ⟨_, he⟩; exact hilen he.2.2.1
          rw [List.set_eq_of_length_le (by omega), if_neg hn]
      · have hn : ¬ (co' = co ∧ wf.cellExists co) := by
          rintro ⟨rfl, _⟩; exact hi rfl
        rw [List.getD_set_ne _ _ _ _ _ (fun hh => hi hh.symm), if_neg hn]
    · rw [if_neg hg', if_neg hg']
      have hn : ¬ (co' = co ∧ wf.cellExists co) := by
        rintro ⟨rfl, he⟩; exact hg' ⟨he.1, he.2.1⟩
      rw [if_neg hn]

theorem Wavefunction.get_setCell_self (wf : Wavefunction) (co : Coordinates) (s : Coefficients)
    (h : wf.cellExists co) : (wf.setCell co s).get co = s := by
  rw [Wavefunction.get_setCell, if_pos ⟨rfl, h⟩]

theorem Wavefunction.get_setCell_of_ne (wf : Wavefunction) (co : Coordinates) (s : Coefficients)
    (co' : Coordinates) (h : co' ≠ co) : (wf.setCell co s).get co' = wf.get co' := by
  rw [Wavefunction.get_setCell, if_neg (fun hh => h hh.1)]

theorem Wavefunction.cellExists_setCell (wf : Wavefunction) (co : Coordinates) (s : Coefficients)
    (co' : Coordinates) : (wf.setCell co s).cellExists co' ↔ wf.cellExists co' := by
  unfold Wavefunction.setCell
  split
  case isFalse => exact Iff.rfl
  case isTrue hco =>
    unfold Wavefunction.cellExists
    simp only [List.length_set]
    by_cases hi : co'.1.toNat = co.1.toNat
    · by_cases hilen : co.1.toNat < wf.coefficient_matrix.length
      · rw [hi, List.getD_set_self _ _ _ _ hilen, List.length_set]
      · rw [List.set_eq_of_length_le (by omega)]
    · rw [List.getD_set_ne _ _ _ _ _ (fun hh => hi hh.symm)]

theorem wellFormed_setCell {size : ℕ × ℕ} {wf : Wavefunction} (h : WellFormed size wf)
    (co : Coordinates) (s : Coefficients) : WellFormed size (wf.setCell co s) := by
  unfold Wavefunction.setCell
  split
  case isFalse => exact h
  case isTrue =>
    refine ⟨by simp [h.1], ?_⟩
    intro row hrow
    dsimp only at hrow
    by_cases hilen : co.1.toNat < wf.coefficient_matrix.length
    · rcases List.mem_or_eq_of_mem_set hrow with hmem | rfl
      · exact h.2 row hmem
      · rw [List.length_set]
        exact h.2 _ (List.getD_mem _ _ _ hilen)
    · rw [List.set_eq_of_length_le
        (show wf.coefficient_matrix.length ≤ co.1.toNat by omega)] at hrow
      exact h.2 row hrow

theorem cellExists_iff_inB {size : ℕ × ℕ} {wf : Wavefunction} (h : WellFormed size wf)
    (co : Coordinates) : wf.cellExists co ↔ inB size co := by
  unfold Wavefunction.cellExists inB
  constructor
  · rintro ⟨h1, h2, h3, h4⟩
    rw [h.1] at h3
    have hrow : (wf.coefficient_matrix.getD co.1.toNat []).length = size.1 := by
      apply h.2
      exact List.getD_mem _ _ _ (by rw [h.1]; exact h3)
    omega
  · rintro ⟨h1, h2, h3, h4⟩
    have hlen : co.1.toNat < wf.coefficient_matrix.length := by rw [h.1]; omega
    have hrow : (wf.coefficient_matrix.getD co.1.toNat []).length = size.1 := by
      apply h.2
      exact List.getD_mem _ _ _ hlen
    refine ⟨h1, h3, hlen, by omega⟩

theorem wellFormed_init (size : ℕ × ℕ) (w : Weights) :
    WellFormed size (Wavefunction.init size w) := by
  unfold Wavefunction.init Wavefunction.init_coefficient_matrix WellFormed
  refine ⟨by simp, ?_⟩
  intro row hrow
  rw [List.eq_of_mem_replicate hrow]
  simp

theorem get_init {size : ℕ × ℕ} {co : Coordinates} (w : Weights) (h : inB size co) :
    (Wavefunction.init size w).get co = (w.map Prod.fst).toFinset := by
  unfold Wavefunction.init Wavefunction.get Wavefunction.init_coefficient_matrix
  rcases h with ⟨h1, h2, h3, h4⟩
  rw [if_pos ⟨h1, h3⟩]
  rw [List.getD_replicate_elt]
  rw [if_pos (show co.1.toNat < size.2 by omega)]
  rw [List.getD_replicate_elt]
  rw [if_pos (show co.2.toNat < size.1 by omega)]

/-- The membership description of valid_dirs. -/
theorem mem_valid_dirs {co : Coordinates} {size : ℕ × ℕ} {d : Direction}
    (h : d ∈ valid_dirs co size) :
    (d = UP ∧ co.1 < (size.2 : ℤ) - 1) ∨ (d = DOWN ∧ 0 < co.1) ∨
    (d = LEFT ∧ 0 < co.2) ∨ (d = RIGHT ∧ co.2 < (size.1 : ℤ) - 1) := by
  unfold valid_dirs at h
  simp only [List.mem_append] at h
  rcases h with ((h | h) | h) | h
  · split at h
    case isTrue hc => simp only [List.mem_singleton] at h; exact Or.inl ⟨h, hc⟩
    case isFalse => simp at h
  · split at h
    case isTrue hc => simp only [List.mem_singleton] at h; exact Or.inr (Or.inl ⟨h, hc⟩)
    case isFalse => simp at h
  · split at h
    case isTrue hc =>
      simp only [List.mem_singleton] at h; exact Or.inr (Or.inr (Or.inl ⟨h, hc⟩))
    case isFalse => simp at h
  · split at h
    case isTrue hc =>
      simp only [List.mem_singleton] at h; exact Or.inr (Or.inr (Or.inr ⟨h, hc⟩))
    case isFalse => simp at h

/-- Any direction returned by valid_dirs stays in bounds. -/
theorem valid_dirs_inB {co : Coordinates} {size : ℕ × ℕ} {d : Direction}
    (hco : inB size co) (h : d ∈ valid_dirs co size) :
    inB size (co.1 + d.1, co.2 + d.2) := by
  rcases hco with ⟨h1, h2, h3, h4⟩
  rcases mem_valid_dirs h with ⟨rfl, hh⟩ | ⟨rfl, hh⟩ | ⟨rfl, hh⟩ | ⟨rfl, hh⟩ <;>
    dsimp only [UP, DOWN, LEFT, RIGHT, inB] <;>
    exact ⟨by omega, by omega, by omega, by omega⟩

/-- A cell is never its own neighbour. -/
theorem valid_dirs_ne {co : Coordinates} {size : ℕ × ℕ} {d : Direction}
    (h : d ∈ valid_dirs co size) : (co.1 + d.1, co.2 + d.2) ≠ co := by
  intro hh
  have h1 : co.1 + d.1 = co.1 := congrArg Prod.fst hh
  have h2 : co.2 + d.2 = co.2 := congrArg Prod.snd hh
  rcases mem_valid_dirs h with ⟨rfl, _⟩ | ⟨rfl, _⟩ | ⟨rfl, _⟩ | ⟨rfl, _⟩ <;>
    dsimp only [UP, DOWN, LEFT, RIGHT] at h1 h2 <;> omega

/-! ### The weighted-selection walk -/

theorem walkChoose_mem (rand : ℚ) (l : List (Tile × ℕ)) (ch : Tile) :
    walkChoose rand l ch = ch ∨ walkChoose rand l ch ∈ l.map Prod.fst := by
  induction l generalizing rand with
  | nil => exact Or.inl rfl
  | cons p rest ih =>
    rcases p with ⟨t, w⟩
    unfold walkChoose
    split
    · right; simp
    · rcases ih (rand - (w : ℚ)) with h | h
      · exact Or.inl h
      · right
        simp only [List.map_cons, List.mem_cons]
        exact Or.inr h

/-- Sum of the weights of the first i entries. -/
def prefixW (l : List (Tile × ℕ)) (i : ℕ) : ℕ :=
  ((l.take i).map (fun tw => tw.2)).sum

theorem prefixW_cons (p : Tile × ℕ) (rest : List (Tile × ℕ)) (i : ℕ) :
    prefixW (p :: rest) (i + 1) = p.2 + prefixW rest i := by
  simp [prefixW]

/-- The walk picks the first entry at which the running remainder becomes
negative, i.e. the first index whose weight prefix sum exceeds the draw. -/
theorem walkChoose_first_hit (l : List (Tile × ℕ)) (rand : ℚ) (ch : Tile)
    (h0 : 0 ≤ rand) (hlt : rand < ((l.map (fun tw => tw.2)).sum : ℕ)) :
    ∃ i, ∃ hi : i < l.length, walkChoose rand l ch = (l.get ⟨i, hi⟩).1 ∧
      rand < (prefixW l (i + 1) : ℚ) ∧ ∀ j < i, ¬ (rand < (prefixW l (j + 1) : ℚ)) := by
  induction l generalizing rand with
  | nil =>
    exfalso
    simp only [List.map_nil, List.sum_nil, Nat.cast_zero] at hlt
    linarith
  | cons p rest ih =>
    rcases p with ⟨t, w⟩
    unfold walkChoose
    by_cases hw : rand - (w : ℚ) < 0
    · refine ⟨0, by simp, by rw [if_pos hw]; rfl, ?_, by omega⟩
      have : prefixW ((t, w) :: rest) 1 = w := by simp [prefixW]
      rw [this]
      linarith
    · rw [if_neg hw]
      have h0' : 0 ≤ rand - (w : ℚ) := by linarith
      have hlt' : rand - (w : ℚ) < ((rest.map (fun tw => tw.2)).sum : ℕ) := by
        simp only [List.map_cons, List.sum_cons, Nat.cast_add] at hlt
        linarith
      obtain ⟨i, hi, heq, hub, hmin⟩ := ih (rand - (w : ℚ)) h0' hlt'
      refine ⟨i + 1, by simpa using Nat.succ_lt_succ hi, ?_, ?_, ?_⟩
      · simpa using heq
      · rw [prefixW_cons]
        push_cast
        linarith
      · intro j hj
        match j with
        | 0 =>
          have h1 : prefixW ((t, w) :: rest) 1 = w := by simp [prefixW]
          rw [h1]
          linarith
        | j' + 1 =>
          rw [prefixW_cons]
          have := hmin j' (by omega)
          push_cast
          push_cast at this
          linarith

/-! ### Direct consequences of collapse and constrain -/

theorem Wavefunction.collapse_eq {wf : Wavefunction} {r : ℚ} {co : Coordinates}
    {wf' : Wavefunction} (h : wf.collapse r co = some wf') :
    ∃ chosen : Tile, chosen ∈ wf.get co ∧ chosen ∈ wf.weights.map Prod.fst ∧
      wf' = wf.setCell co {chosen} := by
  unfold Wavefunction.collapse at h
  dsimp only at h
  split at h
  case h_1 => exact absurd h (by simp)
  case h_2 t0 w0 rest heq =>
    rw [Option.some_inj] at h
    rw [heq] at h
    have hmem : ∀ x ∈ (t0, w0) :: rest, x ∈ wf.weights ∧ x.1 ∈ wf.get co := by
      intro x hx
      rw [← heq] at hx
      have h1 := List.mem_filter.mp hx
      exact ⟨h1.1, by simpa using h1.2⟩
    have hch : walkChoose (r * (((List.map (fun tw => tw.2) ((t0, w0) :: rest)).sum : ℕ) : ℚ))
        ((t0, w0) :: rest) t0 ∈ List.map Prod.fst ((t0, w0) :: rest) := by
      rcases walkChoose_mem (r * (((List.map (fun tw => tw.2) ((t0, w0) :: rest)).sum : ℕ) : ℚ))
        ((t0, w0) :: rest) t0 with hc | hc
      · rw [hc]; simp
      · exact hc
    obtain ⟨x, hx, hxeq⟩ := List.mem_map.mp hch
    refine ⟨_, ?_, ?_, h.symm⟩
    · rw [← hxeq]
      exact (hmem x hx).2
    · rw [← hxeq]
      exact List.mem_map.mpr ⟨x, (hmem x hx).1, rfl⟩

theorem Wavefunction.collapse_weights {wf : Wavefunction} {r : ℚ} {co : Coordinates}
    {wf' : Wavefunction} (h : wf.collapse r co = some wf') : wf'.weights = wf.weights := by
  obtain ⟨c, _, _, rfl⟩ := Wavefunction.collapse_eq h
  exact wf.setCell_weights co {c}

theorem Wavefunction.collapse_mono {wf : Wavefunction} {r : ℚ} {co : Coordinates}
    {wf' : Wavefunction} (h : wf.collapse r co = some wf') :
    ∀ co', wf'.get co' ⊆ wf.get co' := by
  obtain ⟨c, hc, _, rfl⟩ := Wavefunction.collapse_eq h
  intro co'
  rw [Wavefunction.get_setCell]
  split
  case isTrue hh =>
    rw [hh.1]
    intro x hx
    rw [Finset.mem_singleton] at hx
    exact hx ▸ hc
  case isFalse => exact fun x hx => hx

theorem Wavefunction.constrain_eq {wf : Wavefunction} {co : Coordinates} {t : Tile}
    {wf' : Wavefunction} (h : wf.constrain co t = some wf') :
    t ∈ wf.get co ∧ wf' = wf.setCell co ((wf.get co).erase t) := by
  unfold Wavefunction.constrain at h
  split at h
  case isTrue ht => exact ⟨ht, (Option.some_inj.mp h).symm⟩
  case isFalse => exact absurd h (by simp)

theorem Wavefunction.constrain_weights {wf : Wavefunction} {co : Coordinates} {t : Tile}
    {wf' : Wavefunction} (h : wf.constrain co t = some wf') : wf'.weights = wf.weights := by
  obtain ⟨_, rfl⟩ := Wavefunction.constrain_eq h
  exact wf.setCell_weights co _

theorem Wavefunction.constrain_mono {wf : Wavefunction} {co : Coordinates} {t : Tile}
    {wf' : Wavefunction} (h : wf.constrain co t = some wf') :
    ∀ co', wf'.get co' ⊆ wf.get co' := by
  obtain ⟨ht, rfl⟩ := Wavefunction.constrain_eq h
  intro co'
  rw [Wavefunction.get_setCell]
  split
  case isTrue hh => rw [hh.1]; exact Finset.erase_subset t _
  case isFalse => exact fun x hx => hx

theorem applyOp_mono {wf wf' : Wavefunction} {op : WfOp} (h : applyOp wf op = some wf') :
    ∀ co', wf'.get co' ⊆ wf.get co' := by
  cases op with
  | collapseOp r co => exact Wavefunction.collapse_mono h
  | constrainOp co t => exact Wavefunction.constrain_mono h

theorem applyOp_weights {wf wf' : Wavefunction} {op : WfOp} (h : applyOp wf op = some wf') :
    wf'.weights = wf.weights := by
  cases op with
  | collapseOp r co => exact Wavefunction.collapse_weights h
  | constrainOp co t => exact Wavefunction.constrain_weights h

theorem applyOps_mono {wf wf' : Wavefunction} {ops : List WfOp}
    (h : applyOps wf ops = some wf') : ∀ co', wf'.get co' ⊆ wf.get co' := by
  induction ops generalizing wf with
  | nil =>
    unfold applyOps at h
    rw [Option.some_inj] at h
    exact h ▸ fun co' x hx => hx
  | cons op rest ih =>
    unfold applyOps at h
    split at h
    case h_1 => exact absurd h (by simp)
    case h_2 wf1 heq =>
      intro co'
      exact fun x hx => applyOp_mono heq co' (ih h co' hx)

theorem applyOps_weights {wf wf' : Wavefunction} {ops : List WfOp}
    (h : applyOps wf ops = some wf') : wf'.weights = wf.weights := by
  induction ops generalizing wf with
  | nil =>
    unfold applyOps at h
    rw [Option.some_inj] at h
    rw [← h]
  | cons op rest ih =>
    unfold applyOps at h
    split at h
    case h_1 => exact absurd h (by simp)
    case h_2 wf1 heq => rw [ih h, applyOp_weights heq]

/-- filtered_tiles_with_weights of collapse. -/
def filteredWeights (wf : Wavefunction) (co : Coordinates) : List (Tile × ℕ) :=
  wf.weights.filter (fun tw => decide (tw.1 ∈ wf.get co))

/-- total_weights of collapse. -/
def totalW (wf : Wavefunction) (co : Coordinates) : ℕ :=
  ((filteredWeights wf co).map (fun tw => tw.2)).sum

theorem Wavefunction.collapse_def (wf : Wavefunction) (r : ℚ) (co : Coordinates) :
    wf.collapse r co =
      match filteredWeights wf co with
      | [] => none
      | (t0, _) :: _ =>
        some (wf.setCell co
          {walkChoose (r * ((totalW wf co : ℕ) : ℚ)) (filteredWeights wf co) t0}) := rfl

theorem lookup_isSome_of_mem_keys {l : List (Tile × ℕ)} {t : Tile}
    (h : t ∈ l.map Prod.fst) : (l.lookup t).isSome := by
  induction l with
  | nil => simp at h
  | cons p rest ih =>
    rcases p with ⟨a, b⟩
    simp only [List.map_cons, List.mem_cons] at h
    by_cases hta : t = a
    · simp [List.lookup, hta]
    · rcases h with h | h
      · exact absurd h hta
      · have hbeq : (t == a) = false := by simp [hta]
        simp only [List.lookup, hbeq]
        exact ih h

/-! ### The scan of min_entropy_co_ords -/

theorem minEntropyFold_skip (wf : Wavefunction) (noise : Coordinates → ℚ)
    (cells : List Coordinates) (st : Coordinates × Option ℚ)
    (h : ∀ c ∈ cells, (wf.get c).card = 1) :
    cells.foldl (minEntropyStep wf noise) st = st := by
  induction cells generalizing st with
  | nil => rfl
  | cons c rest ih =>
    rw [List.foldl_cons]
    have hc : minEntropyStep wf noise st c = st := by
      unfold minEntropyStep
      rw [if_pos (h c (by simp))]
    rw [hc]
    exact ih _ (fun q hq => h q (by simp [hq]))

theorem minEntropyStep_considered (wf : Wavefunction) (noise : Coordinates → ℚ)
    (st : Coordinates × Option ℚ) (c : Coordinates)
    (h : st.2 ≠ none → (wf.get st.1).card ≠ 1) :
    (minEntropyStep wf noise st c).2 ≠ none → (wf.get (minEntropyStep wf noise st c).1).card ≠ 1 := by
  unfold minEntropyStep
  split
  case isTrue => exact h
  case isFalse hcard =>
    match hst : st.2 with
    | none => intro _; exact hcard
    | some mE =>
      dsimp only
      split
      · intro _; exact hcard
      · exact h

theorem minEntropyFold_considered (wf : Wavefunction) (noise : Coordinates → ℚ)
    (cells : List Coordinates) (st : Coordinates × Option ℚ)
    (h : st.2 ≠ none → (wf.get st.1).card ≠ 1) :
    (cells.foldl (minEntropyStep wf noise) st).2 ≠ none →
      (wf.get (cells.foldl (minEntropyStep wf noise) st).1).card ≠ 1 := by
  induction cells generalizing st with
  | nil => exact h
  | cons c rest ih =>
    rw [List.foldl_cons]
    exact ih _ (minEntropyStep_considered wf noise st c h)

theorem minEntropyStep_ne_none (wf : Wavefunction) (noise : Coordinates → ℚ)
    (st : Coordinates × Option ℚ) (c : Coordinates) (h : st.2 ≠ none) :
    (minEntropyStep wf noise st c).2 ≠ none := by
  unfold minEntropyStep
  split
  case isTrue => exact h
  case isFalse =>
    match hst : st.2 with
    | none => exact absurd hst h
    | some mE =>
      dsimp only
      split
      · exact Option.some_ne_none _
      · rw [hst]; exact Option.some_ne_none mE

theorem minEntropyFold_ne_none_of_st (wf : Wavefunction) (noise : Coordinates → ℚ)
    (cells : List Coordinates) (st : Coordinates × Option ℚ) (h : st.2 ≠ none) :
    (cells.foldl (minEntropyStep wf noise) st).2 ≠ none := by
  induction cells generalizing st with
  | nil => exact h
  | cons c rest ih =>
    rw [List.foldl_cons]
    exact ih _ (minEntropyStep_ne_none wf noise st c h)

theorem minEntropyFold_ne_none (wf : Wavefunction) (noise : Coordinates → ℚ)
    (cells : List Coordinates) (st : Coordinates × Option ℚ)
    (h : ∃ c ∈ cells, (wf.get c).card ≠ 1) :
    (cells.foldl (minEntropyStep wf noise) st).2 ≠ none := by
  induction cells generalizing st with
  | nil => simp at h
  | cons c rest ih =>
    rw [List.foldl_cons]
    rcases h with ⟨q, hq, hcard⟩
    rcases List.mem_cons.mp hq with rfl | hmem
    · apply minEntropyFold_ne_none_of_st
      unfold minEntropyStep
      rw [if_neg hcard]
      match hst : st.2 with
      | none => exact Option.some_ne_none _
      | some mE =>
        dsimp only
        split
        · exact Option.some_ne_none _
        · rw [hst]; exact Option.some_ne_none mE
    · exact ih _ ⟨q, hmem, hcard⟩

theorem filteredWeights_ne_nil {wf : Wavefunction} {co : Coordinates}
    (hne : (wf.get co).Nonempty) (hsub : ∀ t ∈ wf.get co, t ∈ wf.weights.map Prod.fst) :
    filteredWeights wf co ≠ [] := by
  obtain ⟨t, ht⟩ := hne
  obtain ⟨p, hp, hpt⟩ := List.mem_map.mp (hsub t ht)
  intro hnil
  have hmem : p ∈ filteredWeights wf co := List.mem_filter.mpr ⟨hp, by simp [hpt, ht]⟩
  rw [hnil] at hmem
  simp at hmem

theorem up_mem_valid_dirs {co : Coordinates} {size : ℕ × ℕ} (hc : co.1 < (size.2 : ℤ) - 1) :
    UP ∈ valid_dirs co size := by
  unfold valid_dirs
  rw [if_pos hc]
  exact List.mem_append.mpr (Or.inl (List.mem_append.mpr (Or.inl
    (List.mem_append.mpr (Or.inl (List.mem_singleton_self UP))))))

theorem down_mem_valid_dirs {co : Coordinates} {size : ℕ × ℕ} (hc : 0 < co.1) :
    DOWN ∈ valid_dirs co size := by
  unfold valid_dirs
  rw [if_pos hc]
  exact List.mem_append.mpr (Or.inl (List.mem_append.mpr (Or.inl
    (List.mem_append.mpr (Or.inr (List.mem_singleton_self DOWN))))))

theorem left_mem_valid_dirs {co : Coordinates} {size : ℕ × ℕ} (hc : 0 < co.2) :
    LEFT ∈ valid_dirs co size := by
  unfold valid_dirs
  rw [if_pos hc]
  exact List.mem_append.mpr (Or.inl (List.mem_append.mpr
    (Or.inr (List.mem_singleton_self LEFT))))

theorem right_mem_valid_dirs {co : Coordinates} {size : ℕ × ℕ}
    (hc : co.2 < (size.1 : ℤ) - 1) : RIGHT ∈ valid_dirs co size := by
  unfold valid_dirs
  rw [if_pos hc]
  exact List.mem_append.mpr (Or.inr (List.mem_singleton_self RIGHT))

/-! ### Claim theorems (first group) -/

/-- C2 (counterexample): a wavefunction whose single cell has an EMPTY
possibility set.  is_fully_collapsed returns true, yet not every cell has
exactly one element, refuting the claimed iff. -/
theorem claim_C2_counterexample :
    (Wavefunction.mk [[∅]] [("X", 1)]).is_fully_collapsed = true ∧
      ¬ (∀ row ∈ (Wavefunction.mk [[∅]] [("X", 1)]).coefficient_matrix,
          ∀ sq ∈ row, sq.card = 1) := by
  constructor
  · decide
  · intro h
    have := h [∅] (by simp) ∅ (by simp)
    simp at this

/-- C2 (amended): is_fully_collapsed returns true iff every cell's possibility
set has AT MOST one element (the code checks len > 1, so an empty cell counts
as collapsed). -/
theorem claim_C2_amended (wf : Wavefunction) :
    wf.is_fully_collapsed = true ↔
      ∀ row ∈ wf.coefficient_matrix, ∀ sq ∈ row, sq.card ≤ 1 := by
  unfold Wavefunction.is_fully_collapsed
  simp [List.all_eq_true]

/-- C3: over any sequence of collapse/constrain operations that completes
without error, every cell's possibility set only shrinks: it stays a subset of
its previous value and its size is non-increasing (single steps compose, so
this holds between any two points of the sequence). -/
theorem claim_C3_monotonic (ops : List WfOp) (wf wf' : Wavefunction)
    (h : applyOps wf ops = some wf') (co : Coordinates) :
    wf'.get co ⊆ wf.get co ∧ (wf'.get co).card ≤ (wf.get co).card :=
  ⟨applyOps_mono h co, Finset.card_le_card (applyOps_mono h co)⟩

/-- C5: collapsing a non-empty cell (whose tiles all carry positive weights)
succeeds, replaces the cell by a singleton drawn from its previous contents,
and the chosen tile is the first in enumeration order of the filtered
(tile, weight) list whose weight prefix sum exceeds the draw r·total — i.e.
the first at which the running remainder rand - Σw goes negative. -/
theorem claim_C5_collapse (wf : Wavefunction) (r : ℚ) (co : Coordinates)
    (hne : (wf.get co).Nonempty) (hsub : ∀ t ∈ wf.get co, t ∈ wf.weights.map Prod.fst)
    (hpos : ∀ p ∈ wf.weights, 0 < p.2) (hr0 : 0 ≤ r) (hr1 : r < 1) :
    ∃ wf' chosen, wf.collapse r co = some wf' ∧
      chosen ∈ wf.get co ∧ wf'.get co = {chosen} ∧
      (∀ co', co' ≠ co → wf'.get co' = wf.get co') ∧
      ∃ i, ∃ hi : i < (filteredWeights wf co).length,
        chosen = ((filteredWeights wf co).get ⟨i, hi⟩).1 ∧
        r * (totalW wf co : ℚ) < (prefixW (filteredWeights wf co) (i + 1) : ℚ) ∧
        ∀ j < i, ¬ (r * (totalW wf co : ℚ) < (prefixW (filteredWeights wf co) (j + 1) : ℚ)) := by
  have hfil := filteredWeights_ne_nil hne hsub
  obtain ⟨t0, w0, rest, hf⟩ : ∃ t0 w0 rest, filteredWeights wf co = (t0, w0) :: rest := by
    rcases hq : filteredWeights wf co with _ | ⟨⟨a, b⟩, l⟩
    · exact absurd hq hfil
    · exact ⟨a, b, l, rfl⟩
  have htot : 0 < totalW wf co := by
    have hw0 : 0 < w0 := by
      have hmemw : (t0, w0) ∈ wf.weights :=
        (List.mem_filter.mp (hf ▸ List.mem_cons_self (t0, w0) rest)).1
      exact hpos _ hmemw
    have hmem : w0 ∈ (filteredWeights wf co).map (fun tw => tw.2) := by
      rw [hf]; simp
    have hle : w0 ≤ totalW wf co :=
      List.single_le_sum (fun x _ => Nat.zero_le x) _ hmem
    omega
  have hcol : wf.collapse r co =
      some (wf.setCell co
        {walkChoose (r * ((totalW wf co : ℕ) : ℚ)) (filteredWeights wf co) t0}) := by
    rw [Wavefunction.collapse_def, hf]
  have h0 : 0 ≤ r * ((totalW wf co : ℕ) : ℚ) :=
    mul_nonneg hr0 (by positivity)
  have hlt : r * ((totalW wf co : ℕ) : ℚ) <
      (((filteredWeights wf co).map (fun tw => tw.2)).sum : ℕ) := by
    have h1 : r * ((totalW wf co : ℕ) : ℚ) < 1 * ((totalW wf co : ℕ) : ℚ) := by
      apply mul_lt_mul_of_pos_right hr1
      exact_mod_cast htot
    rw [one_mul] at h1
    exact h1
  obtain ⟨i, hi, heq, hub, hmin⟩ :=
    walkChoose_first_hit (filteredWeights wf co) (r * ((totalW wf co : ℕ) : ℚ)) t0 h0 hlt
  set chosen := walkChoose (r * ((totalW wf co : ℕ) : ℚ)) (filteredWeights wf co) t0 with hchdef
  have hch_get : chosen ∈ wf.get co := by
    have hmem : ((filteredWeights wf co).get ⟨i, hi⟩) ∈ filteredWeights wf co :=
      List.get_mem _ i hi
    have hfl := List.mem_filter.mp hmem
    rw [heq]
    simpa using hfl.2
  have hcell : wf.cellExists co :=
    wf.cellExists_of_get_ne_empty co (Finset.ne_empty_of_mem hch_get)
  refine ⟨_, chosen, hcol, hch_get, ?_, ?_, i, hi, heq, hub, hmin⟩
  · exact wf.get_setCell_self co {chosen} hcell
  · intro co' hco'
    exact wf.get_setCell_of_ne co {chosen} co' hco'

/-- C6: whenever min_entropy_co_ords returns (rather than raising inside
shannon_entropy), the returned coordinate is never a cell of possibility-set
size one if an uncollapsed cell exists; and when every scanned cell has
exactly one possibility it returns the default origin (0, 0). -/
theorem claim_C6_min_entropy (m : Model) (noise : Coordinates → ℚ) (c : Coordinates)
    (h : m.min_entropy_co_ords noise = some c) :
    ((∃ q ∈ gridCells m.output_size, (m.wavefunction.get q).card ≠ 1) →
      (m.wavefunction.get c).card ≠ 1) ∧
    ((∀ q ∈ gridCells m.output_size, (m.wavefunction.get q).card = 1) → c = (0, 0)) := by
  unfold Model.min_entropy_co_ords at h
  dsimp only at h
  split at h
  case isTrue => exact absurd h (by simp)
  case isFalse hbad =>
    rw [Option.some_inj] at h
    constructor
    · intro hex
      have hne := minEntropyFold_ne_none m.wavefunction noise (gridCells m.output_size)
        ((0, 0), none) hex
      have := minEntropyFold_considered m.wavefunction noise (gridCells m.output_size)
        ((0, 0), none) (by intro hh; exact absurd rfl hh) hne
      rw [h] at this
      exact this
    · intro hall
      rw [← h, minEntropyFold_skip m.wavefunction noise _ _ hall]

/-- C7: constrain removes exactly the given tile when present (the cell
becomes its previous set minus that tile, all other cells untouched), and
errors precisely when the tile is absent from the cell. -/
theorem claim_C7_constrain (wf : Wavefunction) (co : Coordinates) (t : Tile) :
    (wf.constrain co t = none ↔ t ∉ wf.get co) ∧
    (t ∈ wf.get co → ∃ wf', wf.constrain co t = some wf' ∧
      wf'.get co = (wf.get co).erase t ∧
      ∀ co', co' ≠ co → wf'.get co' = wf.get co') := by
  constructor
  · constructor
    · intro h ht
      unfold Wavefunction.constrain at h
      rw [if_pos ht] at h
      exact absurd h (by simp)
    · intro ht
      unfold Wavefunction.constrain
      rw [if_neg ht]
  · intro ht
    have hcell : wf.cellExists co := wf.cellExists_of_get_ne_empty co (Finset.ne_empty_of_mem ht)
    refine ⟨wf.setCell co ((wf.get co).erase t), ?_, ?_, ?_⟩
    · unfold Wavefunction.constrain
      rw [if_pos ht]
    · exact wf.get_setCell_self co _ hcell
    · intro co' hco'
      exact wf.get_setCell_of_ne co _ co' hco'

/-- C8: from any in-bounds cell, every direction returned by valid_dirs leads
to an in-bounds cell, and each of the four directions is returned exactly when
the cell is not on the corresponding boundary (up only below the top-most row,
etc.) — so propagation never indexes outside the grid and there is no
wraparound adjacency. -/
theorem claim_C8_valid_dirs (co : Coordinates) (size : ℕ × ℕ) (hco : inB size co) :
    (∀ d ∈ valid_dirs co size, inB size (co.1 + d.1, co.2 + d.2)) ∧
    (UP ∈ valid_dirs co size ↔ co.1 < (size.2 : ℤ) - 1) ∧
    (DOWN ∈ valid_dirs co size ↔ 0 < co.1) ∧
    (LEFT ∈ valid_dirs co size ↔ 0 < co.2) ∧
    (RIGHT ∈ valid_dirs co size ↔ co.2 < (size.1 : ℤ) - 1) := by
  refine ⟨fun d hd => valid_dirs_inB hco hd, ⟨?_, up_mem_valid_dirs⟩,
    ⟨?_, down_mem_valid_dirs⟩, ⟨?_, left_mem_valid_dirs⟩, ⟨?_, right_mem_valid_dirs⟩⟩
  · intro h
    rcases mem_valid_dirs h with ⟨_, hc⟩ | ⟨hd, _⟩ | ⟨hd, _⟩ | ⟨hd, _⟩
    · exact hc
    · exact absurd hd (by decide)
    · exact absurd hd (by decide)
    · exact absurd hd (by decide)
  · intro h
    rcases mem_valid_dirs h with ⟨hd, _⟩ | ⟨_, hc⟩ | ⟨hd, _⟩ | ⟨hd, _⟩
    · exact absurd hd (by decide)
    · exact hc
    · exact absurd hd (by decide)
    · exact absurd hd (by decide)
  · intro h
    rcases mem_valid_dirs h with ⟨hd, _⟩ | ⟨hd, _⟩ | ⟨_, hc⟩ | ⟨hd, _⟩
    · exact absurd hd (by decide)
    · exact absurd hd (by decide)
    · exact hc
    · exact absurd hd (by decide)
  · intro h
    rcases mem_valid_dirs h with ⟨hd, _⟩ | ⟨hd, _⟩ | ⟨hd, _⟩ | ⟨_, hc⟩
    · exact absurd hd (by decide)
    · exact absurd hd (by decide)
    · exact absurd hd (by decide)
    · exact hc

/-- C10: each cell of a freshly constructed Wavefunction holds exactly the
tile universe (the weights' key set); after any error-free sequence of
collapse/constrain operations every cell is still a subset of that universe,
so the per-tile weight lookups performed by shannon_entropy always succeed. -/
theorem claim_C10_universe (size : ℕ × ℕ) (w : Weights) (ops : List WfOp)
    (wf' : Wavefunction) (h : applyOps (Wavefunction.init size w) ops = some wf')
    (co : Coordinates) :
    (inB size co → (Wavefunction.init size w).get co = (w.map Prod.fst).toFinset) ∧
    wf'.get co ⊆ (w.map Prod.fst).toFinset ∧
    (∀ t ∈ wf'.get co, (w.lookup t).isSome) := by
  have hinit : ∀ q, (Wavefunction.init size w).get q ⊆ (w.map Prod.fst).toFinset := by
    intro q
    by_cases hq : inB size q
    · rw [get_init w hq]
    · rw [(Wavefunction.init size w).get_of_not_cellExists q
        (fun hc => hq ((cellExists_iff_inB (wellFormed_init size w) q).mp hc))]
      exact Finset.empty_subset _
  have hsub : wf'.get co ⊆ (w.map Prod.fst).toFinset :=
    fun x hx => hinit co (applyOps_mono h co hx)
  refine ⟨fun hco => get_init w hco, hsub, ?_⟩
  intro t ht
  exact lookup_isSome_of_mem_keys (List.mem_toFinset.mp (hsub ht))

/-! ### The propagation loop -/

theorem processDirs_mono (oracle : CompatibilityOracle) (curTiles : Coefficients)
    (cur : Coordinates) :
    ∀ (ds : List Direction) (wf : Wavefunction) (pushed : List Coordinates) (co : Coordinates),
      (processDirs oracle curTiles cur ds wf pushed).1.get co ⊆ wf.get co := by
  intro ds
  induction ds with
  | nil => intro wf pushed co; exact fun x hx => hx
  | cons d rest ih =>
    intro wf pushed co
    unfold processDirs
    intro x hx
    have hx1 := ih _ _ co hx
    rw [Wavefunction.get_setCell] at hx1
    split at hx1
    case isTrue hco =>
      rw [hco.1]
      exact Finset.mem_of_mem_filter x hx1
    case isFalse => exact hx1

theorem processDirs_wellFormed (oracle : CompatibilityOracle) (curTiles : Coefficients)
    (cur : Coordinates) {size : ℕ × ℕ} :
    ∀ (ds : List Direction) (wf : Wavefunction) (pushed : List Coordinates),
      WellFormed size wf → WellFormed size (processDirs oracle curTiles cur ds wf pushed).1 := by
  intro ds
  induction ds with
  | nil => intro wf pushed h; exact h
  | cons d rest ih =>
    intro wf pushed h
    unfold processDirs
    exact ih _ _ (wellFormed_setCell h _ _)

theorem processDirs_weights (oracle : CompatibilityOracle) (curTiles : Coefficients)
    (cur : Coordinates) :
    ∀ (ds : List Direction) (wf : Wavefunction) (pushed : List Coordinates),
      (processDirs oracle curTiles cur ds wf pushed).1.weights = wf.weights := by
  intro ds
  induction ds with
  | nil => intro wf pushed; rfl
  | cons d rest ih =>
    intro wf pushed
    unfold processDirs
    rw [ih]
    exact Wavefunction.setCell_weights wf _ _

theorem processDirs_pushed_sub (oracle : CompatibilityOracle) (curTiles : Coefficients)
    (cur : Coordinates) :
    ∀ (ds : List Direction) (wf : Wavefunction) (pushed : List Coordinates),
      ∀ co ∈ (processDirs oracle curTiles cur ds wf pushed).2,
        co ∈ pushed ∨ ∃ d ∈ ds, co = (cur.1 + d.1, cur.2 + d.2) := by
  intro ds
  induction ds with
  | nil => intro wf pushed co hco; exact Or.inl hco
  | cons d rest ih =>
    intro wf pushed co hco
    unfold processDirs at hco
    rcases ih _ _ co hco with hmem | ⟨d', hd', rfl⟩
    · rcases List.mem_append.mp hmem with hmem | hmem
      · exact Or.inl hmem
      · refine Or.inr ⟨d, by simp, ?_⟩
        exact (List.eq_of_mem_replicate hmem).symm ▸ rfl
    · exact Or.inr ⟨d', by simp [hd'], rfl⟩

theorem processDirs_pushed_grow (oracle : CompatibilityOracle) (curTiles : Coefficients)
    (cur : Coordinates) :
    ∀ (ds : List Direction) (wf : Wavefunction) (pushed : List Coordinates),
      ∀ co ∈ pushed, co ∈ (processDirs oracle curTiles cur ds wf pushed).2 := by
  intro ds
  induction ds with
  | nil => intro wf pushed co hco; exact hco
  | cons d rest ih =>
    intro wf pushed co hco
    unfold processDirs
    exact ih _ _ co (List.mem_append.mpr (Or.inl hco))

theorem processDirs_get_cur (oracle : CompatibilityOracle) (curTiles : Coefficients)
    (cur : Coordinates) :
    ∀ (ds : List Direction) (wf : Wavefunction) (pushed : List Coordinates),
      (∀ d ∈ ds, (cur.1 + d.1, cur.2 + d.2) ≠ cur) →
      (processDirs oracle curTiles cur ds wf pushed).1.get cur = wf.get cur := by
  intro ds
  induction ds with
  | nil => intro wf pushed _; rfl
  | cons d rest ih =>
    intro wf pushed hne
    unfold processDirs
    rw [ih _ _ (fun d' hd' => hne d' (by simp [hd']))]
    exact wf.get_setCell_of_ne _ _ cur (Ne.symm (hne d (by simp)))

theorem processDirs_unchanged_of_not_pushed (oracle : CompatibilityOracle)
    (curTiles : Coefficients) (cur : Coordinates) :
    ∀ (ds : List Direction) (wf : Wavefunction) (pushed : List Coordinates) (co : Coordinates),
      co ∉ (processDirs oracle curTiles cur ds wf pushed).2 →
      (processDirs oracle curTiles cur ds wf pushed).1.get co = wf.get co := by
  intro ds
  induction ds with
  | nil => intro wf pushed co _; rfl
  | cons d rest ih =>
    intro wf pushed co hco
    unfold processDirs at hco ⊢
    rw [ih _ _ co hco]
    by_cases hcoeq : co = (cur.1 + d.1, cur.2 + d.2)
    · -- co was not pushed, so no tile was removed at co in this step
      have hrep : (wf.get (cur.1 + d.1, cur.2 + d.2)).card -
          ((wf.get (cur.1 + d.1, cur.2 + d.2)).filter
            (fun t => supportedBy oracle curTiles t d)).card = 0 := by
        by_contra hk
        apply hco
        apply processDirs_pushed_grow
        exact List.mem_append.mpr (Or.inr (List.mem_replicate.mpr ⟨hk, hcoeq⟩))
      have hsub : (wf.get (cur.1 + d.1, cur.2 + d.2)).filter
            (fun t => supportedBy oracle curTiles t d) ⊆ wf.get (cur.1 + d.1, cur.2 + d.2) :=
        Finset.filter_subset _ _
      have hcardle := Finset.card_le_card hsub
      have heqset : (wf.get (cur.1 + d.1, cur.2 + d.2)).filter
            (fun t => supportedBy oracle curTiles t d) = wf.get (cur.1 + d.1, cur.2 + d.2) :=
        Finset.eq_of_subset_of_card_le hsub (by omega)
      rw [Wavefunction.get_setCell]
      split
      next hcc => rw [hcc.1, heqset]
      next => rfl
    · exact wf.get_setCell_of_ne _ _ co hcoeq

theorem processDirs_arc (oracle : CompatibilityOracle) (curTiles : Coefficients)
    (cur : Coordinates) :
    ∀ (ds : List Direction) (wf : Wavefunction) (pushed : List Coordinates),
      (∀ d ∈ ds, (cur.1 + d.1, cur.2 + d.2) ≠ cur) →
      ∀ d ∈ ds, ∀ t ∈ (processDirs oracle curTiles cur ds wf pushed).1.get
        (cur.1 + d.1, cur.2 + d.2), supportedBy oracle curTiles t d := by
  intro ds
  induction ds with
  | nil => intro wf pushed _ d hd; simp at hd
  | cons d0 rest ih =>
    intro wf pushed hne d hd t ht
    unfold processDirs at ht
    rcases List.mem_cons.mp hd with rfl | hd'
    · -- the arc established by this step survives the recursion (monotonicity)
      have hsub := processDirs_mono oracle curTiles cur rest
        (wf.setCell (cur.1 + d.1, cur.2 + d.2)
          ((wf.get (cur.1 + d.1, cur.2 + d.2)).filter
            (fun t => supportedBy oracle curTiles t d)))
        (pushed ++ List.replicate ((wf.get (cur.1 + d.1, cur.2 + d.2)).card -
          ((wf.get (cur.1 + d.1, cur.2 + d.2)).filter
            (fun t => supportedBy oracle curTiles t d)).card) (cur.1 + d.1, cur.2 + d.2))
        (cur.1 + d.1, cur.2 + d.2) ht
      rw [Wavefunction.get_setCell] at hsub
      split at hsub
      next hcc => exact (Finset.mem_filter.mp hsub).2
      next hcc =>
        exfalso
        have hex : Wavefunction.cellExists wf (cur.1 + d.1, cur.2 + d.2) :=
          wf.cellExists_of_get_ne_empty _ (Finset.ne_empty_of_mem hsub)
        exact hcc ⟨rfl, hex⟩
    · exact ih _ _ (fun q hq => hne q (by simp [hq])) d hd' t ht

theorem sum_map_set {α : Type} (f : α → ℕ) :
    ∀ (l : List α) (i : ℕ) (a d : α), i < l.length →
      ((l.set i a).map f).sum + f (l.getD i d) = (l.map f).sum + f a := by
  intro l
  induction l with
  | nil => intro i a d h; simp at h
  | cons x xs ih =>
    intro i a d h
    cases i with
    | zero =>
      simp only [List.set_cons_zero, List.map_cons, List.sum_cons, List.getD_cons_zero]
      omega
    | succ n =>
      simp only [List.set_cons_succ, List.map_cons, List.sum_cons, List.getD_cons_succ]
      have := ih n a d (by simpa using Nat.lt_of_succ_lt_succ h)
      omega

theorem totalCount_setCell (wf : Wavefunction) (co : Coordinates) (s : Coefficients)
    (h : wf.cellExists co) :
    totalCount (wf.setCell co s) + (wf.get co).card = totalCount wf + s.card := by
  obtain ⟨h1, h2, h3, h4⟩ := h
  unfold Wavefunction.setCell totalCount
  rw [if_pos ⟨h1, h2⟩, Wavefunction.get_def, if_pos ⟨h1, h2⟩]
  dsimp only
  have E1 := sum_map_set (fun row => (row.map Finset.card).sum) wf.coefficient_matrix
    co.1.toNat ((wf.coefficient_matrix.getD co.1.toNat []).set co.2.toNat s) [] h3
  have E2 := sum_map_set Finset.card (wf.coefficient_matrix.getD co.1.toNat [])
    co.2.toNat s ∅ h4
  dsimp only at E1
  omega

theorem processDirs_totalCount (oracle : CompatibilityOracle) (curTiles : Coefficients)
    (cur : Coordinates) {size : ℕ × ℕ} :
    ∀ (ds : List Direction) (wf : Wavefunction) (pushed : List Coordinates),
      WellFormed size wf → inB size cur → (∀ d ∈ ds, d ∈ valid_dirs cur size) →
      totalCount (processDirs oracle curTiles cur ds wf pushed).1 +
        (processDirs oracle curTiles cur ds wf pushed).2.length =
      totalCount wf + pushed.length := by
  intro ds
  induction ds with
  | nil => intro wf pushed _ _ _; rfl
  | cons d rest ih =>
    intro wf pushed hwf hcur hds
    unfold processDirs
    dsimp only
    have hother : inB size (cur.1 + d.1, cur.2 + d.2) :=
      valid_dirs_inB hcur (hds d (by simp))
    have hcell : wf.cellExists (cur.1 + d.1, cur.2 + d.2) :=
      (cellExists_iff_inB hwf _).mpr hother
    have hE := totalCount_setCell wf (cur.1 + d.1, cur.2 + d.2)
      ((wf.get (cur.1 + d.1, cur.2 + d.2)).filter
        (fun t => supportedBy oracle curTiles t d)) hcell
    have hcardle : ((wf.get (cur.1 + d.1, cur.2 + d.2)).filter
        (fun t => supportedBy oracle curTiles t d)).card ≤
        (wf.get (cur.1 + d.1, cur.2 + d.2)).card :=
      Finset.card_le_card (Finset.filter_subset _ _)
    have hrec := ih (wf.setCell (cur.1 + d.1, cur.2 + d.2)
        ((wf.get (cur.1 + d.1, cur.2 + d.2)).filter
          (fun t => supportedBy oracle curTiles t d)))
      (pushed ++ List.replicate ((wf.get (cur.1 + d.1, cur.2 + d.2)).card -
        ((wf.get (cur.1 + d.1, cur.2 + d.2)).filter
          (fun t => supportedBy oracle curTiles t d)).card) (cur.1 + d.1, cur.2 + d.2))
      (wellFormed_setCell hwf _ _) hcur (fun q hq => hds q (by simp [hq]))
    rw [List.length_append, List.length_replicate] at hrec
    omega

/-- The one-step unfolding of the propagation worklist loop. -/
theorem propagateAux_cons (oracle : CompatibilityOracle) (size : ℕ × ℕ) (f : ℕ)
    (cur : Coordinates) (rest : List Coordinates) (wf : Wavefunction) :
    propagateAux oracle size (f + 1) (cur :: rest) wf =
      propagateAux oracle size f
        ((processDirs oracle (wf.get cur) cur (valid_dirs cur size) wf []).2 ++ rest)
        (processDirs oracle (wf.get cur) cur (valid_dirs cur size) wf []).1 := rfl

theorem propagateAux_nil (oracle : CompatibilityOracle) (size : ℕ × ℕ) (fuel : ℕ)
    (wf : Wavefunction) : propagateAux oracle size fuel [] wf = some wf := by
  cases fuel <;> rfl

theorem propagateAux_zero_cons (oracle : CompatibilityOracle) (size : ℕ × ℕ)
    (cur : Coordinates) (rest : List Coordinates) (wf : Wavefunction) :
    propagateAux oracle size 0 (cur :: rest) wf = none := rfl

theorem propagateAux_spec (oracle : CompatibilityOracle) (size : ℕ × ℕ) :
    ∀ (fuel : ℕ) (stack : List Coordinates) (wf wf' : Wavefunction),
      propagateAux oracle size fuel stack wf = some wf' →
      (∀ co, wf'.get co ⊆ wf.get co) ∧ wf'.weights = wf.weights ∧
      (WellFormed size wf → WellFormed size wf') := by
  intro fuel
  induction fuel with
  | zero =>
    intro stack wf wf' h
    cases stack with
    | nil =>
      rw [propagateAux_nil, Option.some_inj] at h
      subst h
      exact ⟨fun co x hx => hx, rfl, fun hw => hw⟩
    | cons cur rest =>
      rw [propagateAux_zero_cons] at h
      exact absurd h (by simp)
  | succ f ih =>
    intro stack wf wf' h
    cases stack with
    | nil =>
      rw [propagateAux_nil, Option.some_inj] at h
      subst h
      exact ⟨fun co x hx => hx, rfl, fun hw => hw⟩
    | cons cur rest =>
      rw [propagateAux_cons] at h
      obtain ⟨hmono, hweights, hwf⟩ := ih _ _ _ h
      refine ⟨fun co x hx => processDirs_mono oracle (wf.get cur) cur _ _ _ co (hmono co hx),
        ?_, fun hw => hwf (processDirs_wellFormed oracle (wf.get cur) cur _ _ _ hw)⟩
      rw [hweights, processDirs_weights]

theorem propagateAux_ne_none (oracle : CompatibilityOracle) (size : ℕ × ℕ) :
    ∀ (fuel : ℕ) (stack : List Coordinates) (wf : Wavefunction),
      WellFormed size wf → (∀ c ∈ stack, inB size c) →
      totalCount wf + stack.length < fuel →
      propagateAux oracle size fuel stack wf ≠ none := by
  intro fuel
  induction fuel with
  | zero => intro stack wf _ _ hbound; omega
  | succ f ih =>
    intro stack wf hwf hstack hbound
    cases stack with
    | nil => rw [propagateAux_nil]; simp
    | cons cur rest =>
      rw [propagateAux_cons]
      have hcur : inB size cur := hstack cur (by simp)
      have hPD := processDirs_totalCount oracle (wf.get cur) cur (valid_dirs cur size) wf []
        hwf hcur (fun d hd => hd)
      apply ih
      · exact processDirs_wellFormed oracle (wf.get cur) cur _ _ _ hwf
      · intro c hc
        rcases List.mem_append.mp hc with hc | hc
        · rcases processDirs_pushed_sub oracle (wf.get cur) cur _ _ _ c hc with hmem | ⟨d, hd, rfl⟩
          · simp at hmem
          · exact valid_dirs_inB hcur hd
        · exact hstack c (by simp [hc])
      · rw [List.length_append]
        simp only [List.length_nil] at hPD
        simp only [List.length_cons] at hbound
        omega

/-- The arc property enforced by propagation: every tile still possible at the
neighbour of c in direction d has a compatible partner still possible at c. -/
def Arc (oracle : CompatibilityOracle) (wf : Wavefunction) (c : Coordinates)
    (d : Direction) : Prop :=
  ∀ t ∈ wf.get (c.1 + d.1, c.2 + d.2), ∃ s ∈ wf.get c, oracle.check s t d = true

theorem propagateAux_arc (oracle : CompatibilityOracle) (size : ℕ × ℕ) (U : Coefficients) :
    ∀ (fuel : ℕ) (stack : List Coordinates) (wf wf' : Wavefunction),
      WellFormed size wf → (∀ c ∈ stack, inB size c) →
      (∀ c d, inB size c → d ∈ valid_dirs c size →
        Arc oracle wf c d ∨ wf.get c = U ∨ c ∈ stack) →
      propagateAux oracle size fuel stack wf = some wf' →
      ∀ c d, inB size c → d ∈ valid_dirs c size → Arc oracle wf' c d ∨ wf'.get c = U := by
  intro fuel
  induction fuel with
  | zero =>
    intro stack wf wf' hwf hstack hinv h c d hc hd
    cases stack with
    | nil =>
      rw [propagateAux_nil, Option.some_inj] at h
      subst h
      rcases hinv c d hc hd with ha | hu | hmem
      · exact Or.inl ha
      · exact Or.inr hu
      · simp at hmem
    | cons cur rest =>
      rw [propagateAux_zero_cons] at h
      exact absurd h (by simp)
  | succ f ih =>
    intro stack wf wf' hwf hstack hinv h c d hc hd
    cases stack with
    | nil =>
      rw [propagateAux_nil, Option.some_inj] at h
      subst h
      rcases hinv c d hc hd with ha | hu | hmem
      · exact Or.inl ha
      · exact Or.inr hu
      · simp at hmem
    | cons cur rest =>
      rw [propagateAux_cons] at h
      have hcur : inB size cur := hstack cur (by simp)
      have hne_nb : ∀ q ∈ valid_dirs cur size, (cur.1 + q.1, cur.2 + q.2) ≠ cur :=
        fun q hq => valid_dirs_ne hq
      refine ih _ _ _ (processDirs_wellFormed oracle (wf.get cur) cur _ _ _ hwf) ?_ ?_ h c d hc hd
      · intro q hq
        rcases List.mem_append.mp hq with hq | hq
        · rcases processDirs_pushed_sub oracle (wf.get cur) cur _ _ _ q hq with hmem | ⟨d', hd', rfl⟩
          · simp at hmem
          · exact valid_dirs_inB hcur hd'
        · exact hstack q (by simp [hq])
      · intro c' d' hc' hd'
        by_cases hcmem : c' ∈ (processDirs oracle (wf.get cur) cur
            (valid_dirs cur size) wf []).2 ++ rest
        · exact Or.inr (Or.inr hcmem)
        · have hcp : c' ∉ (processDirs oracle (wf.get cur) cur (valid_dirs cur size) wf []).2 :=
            fun hh => hcmem (List.mem_append.mpr (Or.inl hh))
          have hcr : c' ∉ rest := fun hh => hcmem (List.mem_append.mpr (Or.inr hh))
          have hunch : (processDirs oracle (wf.get cur) cur
              (valid_dirs cur size) wf []).1.get c' = wf.get c' :=
            processDirs_unchanged_of_not_pushed oracle (wf.get cur) cur _ _ _ c' hcp
          by_cases hccur : c' = cur
          · subst hccur
            left
            intro t ht
            have hsup := processDirs_arc oracle (wf.get c') c' (valid_dirs c' size) wf []
              hne_nb d' hd' t ht
            rw [processDirs_get_cur oracle (wf.get c') c' _ _ _ hne_nb]
            exact hsup
          · rcases hinv c' d' hc' hd' with ha | hu | hmem
            · left
              intro t ht
              have ht' : t ∈ wf.get (c'.1 + d'.1, c'.2 + d'.2) :=
                processDirs_mono oracle (wf.get cur) cur _ _ _ _ ht
              obtain ⟨s, hs, hcheck⟩ := ha t ht'
              refine ⟨s, ?_, hcheck⟩
              rw [hunch]
              exact hs
            · exact Or.inr (Or.inl (hunch.trans hu))
            · rcases List.mem_cons.mp hmem with rfl | hh
              · exact absurd rfl hccur
              · exact absurd hh hcr

/-! ### Counting uncollapsed cells -/

theorem filter_length_le {α : Type} :
    ∀ (l : List α) (p q : α → Bool), (∀ a ∈ l, q a = true → p a = true) →
      (l.filter q).length ≤ (l.filter p).length := by
  intro l
  induction l with
  | nil => intro p q _; simp
  | cons x xs ih =>
    intro p q hmono
    have hrec := ih p q (fun a ha => hmono a (by simp [ha]))
    by_cases hq : q x = true
    · have hp := hmono x (by simp) hq
      rw [List.filter_cons_of_pos hq, List.filter_cons_of_pos hp]
      simpa using hrec
    · rw [List.filter_cons_of_neg (by simpa using hq)]
      by_cases hp : p x = true
      · rw [List.filter_cons_of_pos hp]
        simp only [List.length_cons]
        omega
      · rw [List.filter_cons_of_neg (by simpa using hp)]
        exact hrec

theorem filter_length_lt {α : Type} :
    ∀ (l : List α) (p q : α → Bool), (∀ a ∈ l, q a = true → p a = true) →
      ∀ a0 ∈ l, p a0 = true → q a0 = false →
      (l.filter q).length < (l.filter p).length := by
  intro l
  induction l with
  | nil => intro p q _ a0 ha0; simp at ha0
  | cons x xs ih =>
    intro p q hmono a0 ha0 hp0 hq0
    have hmono' : ∀ a ∈ xs, q a = true → p a = true := fun a ha => hmono a (by simp [ha])
    rcases List.mem_cons.mp ha0 with rfl | hmem
    · rw [List.filter_cons_of_neg (by simp [hq0]), List.filter_cons_of_pos hp0]
      simp only [List.length_cons]
      exact Nat.lt_succ_of_le (filter_length_le xs p q hmono')
    · have hrec := ih p q hmono' a0 hmem hp0 hq0
      by_cases hq : q x = true
      · rw [List.filter_cons_of_pos hq, List.filter_cons_of_pos (hmono x (by simp) hq)]
        simpa using hrec
      · rw [List.filter_cons_of_neg (by simpa using hq)]
        by_cases hp : p x = true
        · rw [List.filter_cons_of_pos hp]
          simp only [List.length_cons]
          omega
        · rw [List.filter_cons_of_neg (by simpa using hp)]
          exact hrec

theorem mem_gridCells {size : ℕ × ℕ} {co : Coordinates} :
    co ∈ gridCells size ↔ inB size co := by
  unfold gridCells
  rw [List.mem_flatMap]
  constructor
  · rintro ⟨y, hy, hmem⟩
    rw [List.mem_range] at hy
    obtain ⟨x, hx, rfl⟩ := List.mem_map.mp hmem
    rw [List.mem_range] at hx
    unfold inB
    dsimp only
    exact ⟨by omega, by omega, by omega, by omega⟩
  · intro h
    obtain ⟨h1, h2, h3, h4⟩ := h
    refine ⟨co.1.toNat, by rw [List.mem_range]; omega, ?_⟩
    rw [List.mem_map]
    refine ⟨co.2.toNat, by rw [List.mem_range]; omega, ?_⟩
    exact Prod.ext (by dsimp only; omega) (by dsimp only; omega)

theorem gridCells_length (size : ℕ × ℕ) : (gridCells size).length = size.2 * size.1 := by
  unfold gridCells
  generalize size.2 = h
  induction h with
  | zero => simp
  | succ n ih =>
    rw [List.range_succ, List.flatMap_append, List.flatMap_cons, List.flatMap_nil]
    simp only [List.length_append, ih, List.append_nil, List.length_map, List.length_range]
    rw [Nat.succ_mul]

theorem get_natCast (wf : Wavefunction) (i j : ℕ) :
    wf.get ((i : ℤ), (j : ℤ)) = (wf.coefficient_matrix.getD i []).getD j ∅ := by
  rw [Wavefunction.get_def, if_pos ⟨Int.natCast_nonneg i, Int.natCast_nonneg j⟩]
  simp

/-- The number of cells that still hold two or more possibilities. -/
def uncollapsedCount (size : ℕ × ℕ) (wf : Wavefunction) : ℕ :=
  ((gridCells size).filter (fun c => decide (2 ≤ (wf.get c).card))).length

theorem uncollapsedCount_mono {size : ℕ × ℕ} {wf wf' : Wavefunction}
    (h : ∀ co, wf'.get co ⊆ wf.get co) :
    uncollapsedCount size wf' ≤ uncollapsedCount size wf := by
  apply filter_length_le
  intro a _ hq
  rw [decide_eq_true_eq] at hq ⊢
  exact le_trans hq (Finset.card_le_card (h a))

theorem uncollapsedCount_lt {size : ℕ × ℕ} {wf wf' : Wavefunction}
    (h : ∀ co, wf'.get co ⊆ wf.get co) (co : Coordinates) (hco : co ∈ gridCells size)
    (hbig : 2 ≤ (wf.get co).card) (hsmall : (wf'.get co).card < 2) :
    uncollapsedCount size wf' < uncollapsedCount size wf := by
  apply filter_length_lt
  · intro a _ hq
    rw [decide_eq_true_eq] at hq ⊢
    exact le_trans hq (Finset.card_le_card (h a))
  · exact hco
  · rw [decide_eq_true_eq]
    exact hbig
  · rw [decide_eq_false_iff_not]
    omega

theorem fully_collapsed_iff (wf : Wavefunction) :
    wf.is_fully_collapsed = true ↔
      ∀ row ∈ wf.coefficient_matrix, ∀ sq ∈ row, sq.card ≤ 1 := by
  unfold Wavefunction.is_fully_collapsed
  simp [List.all_eq_true]

theorem exists_uncollapsed_of_not_full {size : ℕ × ℕ} {wf : Wavefunction}
    (hwf : WellFormed size wf) (h : wf.is_fully_collapsed = false) :
    ∃ c ∈ gridCells size, 2 ≤ (wf.get c).card := by
  have hnot : ¬ (∀ row ∈ wf.coefficient_matrix, ∀ sq ∈ row, sq.card ≤ 1) := by
    intro hall
    rw [(fully_collapsed_iff wf).mpr hall] at h
    simp at h
  push_neg at hnot
  obtain ⟨row, hrow, sq, hsq, hcard⟩ := hnot
  obtain ⟨i, hi, hieq⟩ := List.mem_iff_getElem.mp hrow
  obtain ⟨j, hj, hjeq⟩ := List.mem_iff_getElem.mp hsq
  have hrowlen : row.length = size.1 := hwf.2 row hrow
  refine ⟨((i : ℤ), (j : ℤ)), mem_gridCells.mpr ?_, ?_⟩
  · have hlen := hwf.1
    exact ⟨by omega, by omega, by omega, by omega⟩
  · rw [get_natCast]
    have e1 : wf.coefficient_matrix.getD i [] = row := by
      rw [List.getD_eq_getElem?_getD, List.getElem?_eq_getElem hi]
      simpa using hieq
    rw [e1]
    have e2 : row.getD j ∅ = sq := by
      rw [List.getD_eq_getElem?_getD, List.getElem?_eq_getElem hj]
      simpa using hjeq
    rw [e2]
    omega

theorem full_of_uncollapsedCount_zero {size : ℕ × ℕ} {wf : Wavefunction}
    (hwf : WellFormed size wf) (h : uncollapsedCount size wf = 0) :
    wf.is_fully_collapsed = true := by
  rw [fully_collapsed_iff]
  intro row hrow sq hsq
  by_contra hc
  obtain ⟨i, hi, hieq⟩ := List.mem_iff_getElem.mp hrow
  obtain ⟨j, hj, hjeq⟩ := List.mem_iff_getElem.mp hsq
  have hrowlen : row.length = size.1 := hwf.2 row hrow
  have hlen := hwf.1
  have hmem : ((i : ℤ), (j : ℤ)) ∈ gridCells size :=
    mem_gridCells.mpr ⟨by omega, by omega, by omega, by omega⟩
  have hget : wf.get ((i : ℤ), (j : ℤ)) = sq := by
    rw [get_natCast]
    have e1 : wf.coefficient_matrix.getD i [] = row := by
      rw [List.getD_eq_getElem?_getD, List.getElem?_eq_getElem hi]
      simpa using hieq
    rw [e1]
    rw [List.getD_eq_getElem?_getD, List.getElem?_eq_getElem hj]
    simpa using hjeq
  have hfil : ((i : ℤ), (j : ℤ)) ∈
      (gridCells size).filter (fun c => decide (2 ≤ (wf.get c).card)) := by
    apply List.mem_filter.mpr
    refine ⟨hmem, ?_⟩
    rw [decide_eq_true_eq, hget]
    omega
  unfold uncollapsedCount at h
  rw [List.length_eq_zero] at h
  rw [h] at hfil
  simp at hfil

/-! ### The successful-iteration analysis -/

theorem minEntropyStep_prop (wf : Wavefunction) (noise : Coordinates → ℚ)
    (S : Coordinates → Prop) (st : Coordinates × Option ℚ) (c : Coordinates)
    (h : st.2 ≠ none → S st.1) (hc : (wf.get c).card ≠ 1 → S c) :
    (minEntropyStep wf noise st c).2 ≠ none → S (minEntropyStep wf noise st c).1 := by
  unfold minEntropyStep
  split
  next => exact h
  next hcard =>
    match hst : st.2 with
    | none => intro _; exact hc hcard
    | some mE =>
      dsimp only
      split
      · intro _; exact hc hcard
      · exact h

theorem minEntropyFold_prop (wf : Wavefunction) (noise : Coordinates → ℚ)
    (S : Coordinates → Prop) :
    ∀ (cells : List Coordinates) (st : Coordinates × Option ℚ),
      (st.2 ≠ none → S st.1) → (∀ c ∈ cells, (wf.get c).card ≠ 1 → S c) →
      (cells.foldl (minEntropyStep wf noise) st).2 ≠ none →
      S (cells.foldl (minEntropyStep wf noise) st).1 := by
  intro cells
  induction cells with
  | nil => intro st h _ hne; exact h hne
  | cons c rest ih =>
    intro st h hall
    rw [List.foldl_cons]
    exact ih _ (minEntropyStep_prop wf noise S st c h (hall c (by simp)))
      (fun q hq => hall q (by simp [hq]))

theorem min_entropy_mem_spec {m : Model} {noise : Coordinates → ℚ} {co : Coordinates}
    (h : m.min_entropy_co_ords noise = some co)
    (hex : ∃ q ∈ gridCells m.output_size, (m.wavefunction.get q).card ≠ 1) :
    co ∈ gridCells m.output_size ∧ 2 ≤ (m.wavefunction.get co).card := by
  unfold Model.min_entropy_co_ords at h
  dsimp only at h
  split at h
  case isTrue => exact absurd h (by simp)
  case isFalse hbad =>
    rw [Option.some_inj] at h
    have hne := minEntropyFold_ne_none m.wavefunction noise (gridCells m.output_size)
      ((0, 0), none) hex
    have hcard := minEntropyFold_considered m.wavefunction noise (gridCells m.output_size)
      ((0, 0), none) (by intro hh; exact absurd rfl hh) hne
    have hmem := minEntropyFold_prop m.wavefunction noise (fun q => q ∈ gridCells m.output_size)
      (gridCells m.output_size) ((0, 0), none) (by intro hh; exact absurd rfl hh)
      (fun c hc _ => hc) hne
    rw [h] at hcard hmem
    refine ⟨hmem, ?_⟩
    have hdef : m.wavefunction.entropy_defined co = true := by
      rw [Bool.not_eq_true, List.any_eq_false] at hbad
      have := hbad co hmem
      rcases hdc : m.wavefunction.entropy_defined co with _ | _
      · exfalso
        apply this
        rw [Bool.and_eq_true, hdc]
        exact ⟨decide_eq_true hcard, rfl⟩
      · rfl
    have hpos : 0 < (m.wavefunction.get co).card := by
      unfold Wavefunction.entropy_defined at hdef
      rw [Bool.and_eq_true] at hdef
      have hne2 := of_decide_eq_true hdef.1
      exact Finset.card_pos.mpr hne2
    omega

/-- Model.propagate equals the worklist loop's successful result. -/
theorem Model.propagate_some {m : Model} {co : Coordinates}
    (hwf : WellFormed m.output_size m.wavefunction) (hco : inB m.output_size co) :
    propagateAux m.compatibility_oracle m.output_size (totalCount m.wavefunction + 2)
      [co] m.wavefunction = some (m.propagate co) := by
  have hne := propagateAux_ne_none m.compatibility_oracle m.output_size
    (totalCount m.wavefunction + 2) [co] m.wavefunction hwf
    (by intro c hc; rw [List.mem_singleton] at hc; exact hc ▸ hco) (by simp)
  obtain ⟨wf2, h2⟩ := Option.ne_none_iff_exists'.mp hne
  rw [h2]
  unfold Model.propagate
  rw [h2]

theorem Model.iterate_spec {m : Model} {noise : Coordinates → ℚ} {r : ℚ} {m' : Model}
    (hwf : WellFormed m.output_size m.wavefunction)
    (hit : m.iterate noise r = some m') :
    m'.output_size = m.output_size ∧ m'.compatibility_oracle = m.compatibility_oracle ∧
    m'.wavefunction.weights = m.wavefunction.weights ∧
    WellFormed m.output_size m'.wavefunction ∧
    (∀ co, m'.wavefunction.get co ⊆ m.wavefunction.get co) ∧
    ∃ co wf1 chosen, m.min_entropy_co_ords noise = some co ∧
      m.wavefunction.collapse r co = some wf1 ∧ inB m.output_size co ∧
      chosen ∈ m.wavefunction.get co ∧ wf1 = m.wavefunction.setCell co {chosen} ∧
      propagateAux m.compatibility_oracle m.output_size (totalCount wf1 + 2) [co] wf1 =
        some m'.wavefunction := by
  unfold Model.iterate at hit
  split at hit
  case h_1 => exact absurd hit (by simp)
  case h_2 co hme =>
    split at hit
    case h_1 => exact absurd hit (by simp)
    case h_2 wf1 hcol =>
      rw [Option.some_inj] at hit
      obtain ⟨chosen, hch, hchw, hwf1eq⟩ := Wavefunction.collapse_eq hcol
      have hcell : m.wavefunction.cellExists co :=
        m.wavefunction.cellExists_of_get_ne_empty co (Finset.ne_empty_of_mem hch)
      have hco : inB m.output_size co := (cellExists_iff_inB hwf co).mp hcell
      have hwf1 : WellFormed m.output_size wf1 := hwf1eq ▸ wellFormed_setCell hwf co {chosen}
      have hprop : propagateAux m.compatibility_oracle m.output_size (totalCount wf1 + 2)
          [co] wf1 = some ((Model.mk m.output_size m.compatibility_oracle wf1).propagate co) :=
        @Model.propagate_some (Model.mk m.output_size m.compatibility_oracle wf1) co hwf1 hco
      obtain ⟨hmono2, hweights2, hwf2⟩ :=
        propagateAux_spec m.compatibility_oracle m.output_size _ _ _ _ hprop
      have hm' : m' = Model.mk m.output_size m.compatibility_oracle
          ((Model.mk m.output_size m.compatibility_oracle wf1).propagate co) := hit.symm
      subst hm'
      refine ⟨rfl, rfl, ?_, hwf2 hwf1, ?_, co, wf1, chosen, hme, hcol, hco, hch, hwf1eq, hprop⟩
      · rw [hweights2, Wavefunction.collapse_weights hcol]
      · intro q
        exact fun x hx => Wavefunction.collapse_mono hcol q (hmono2 q hx)

theorem runAux_ne_fuelOut (noise : ℕ → Coordinates → ℚ) (draws : ℕ → ℚ) :
    ∀ (fuel k : ℕ) (m : Model), WellFormed m.output_size m.wavefunction →
      uncollapsedCount m.output_size m.wavefunction ≤ fuel →
      Model.runAux noise draws k fuel m ≠ RunOutcome.fuelOut := by
  intro fuel
  induction fuel with
  | zero =>
    intro k m hwf hcount
    unfold Model.runAux
    rw [if_pos (full_of_uncollapsedCount_zero hwf (by omega))]
    unfold finishRun
    split <;> simp
  | succ f ih =>
    intro k m hwf hcount
    unfold Model.runAux
    by_cases hfc : m.wavefunction.is_fully_collapsed = true
    · rw [if_pos hfc]
      unfold finishRun
      split <;> simp
    · rw [if_neg hfc]
      cases hit : m.iterate (noise k) (draws k) with
      | none => simp
      | some m1 =>
        obtain ⟨hsize, _, _, hwf1, hmono, co, wf1, chosen, hme, hcol, hco, hch, hwf1eq, hprop⟩ :=
          Model.iterate_spec hwf hit
        have hnotfull : m.wavefunction.is_fully_collapsed = false :=
          Bool.not_eq_true _ ▸ (by simpa using hfc)
        have hex : ∃ q ∈ gridCells m.output_size, (m.wavefunction.get q).card ≠ 1 := by
          obtain ⟨c, hc, hcard⟩ := exists_uncollapsed_of_not_full hwf hnotfull
          exact ⟨c, hc, by omega⟩
        obtain ⟨hcomem, hcobig⟩ := min_entropy_mem_spec hme hex
        have hsmall : (m1.wavefunction.get co).card < 2 := by
          have h1 : m1.wavefunction.get co ⊆ wf1.get co := by
            intro x hx
            exact (propagateAux_spec m.compatibility_oracle m.output_size _ _ _ _ hprop).1 co hx
          have h2 : wf1.get co = {chosen} := by
            rw [hwf1eq]
            exact m.wavefunction.get_setCell_self co {chosen}
              (m.wavefunction.cellExists_of_get_ne_empty co (Finset.ne_empty_of_mem hch))
          have h3 : (m1.wavefunction.get co).card ≤ 1 := by
            rw [h2] at h1
            have := Finset.card_le_card h1
            simpa using this
          omega
        have hlt : uncollapsedCount m.output_size m1.wavefunction <
            uncollapsedCount m.output_size m.wavefunction :=
          uncollapsedCount_lt hmono co hcomem hcobig hsmall
        have hrec := ih (k + 1) m1 (hsize ▸ hwf1) (by rw [hsize]; omega)
        simpa using hrec

/-- C4: the propagation worklist loop terminates within totalCount + stack
length steps (possibility sets are finite and only shrink, each push is paid
for by a removed possibility), and the run loop never exhausts a fuel of
(grid cell count) iterations: every run performs at most width·height
collapse iterations before returning or raising. -/
theorem claim_C4_termination :
    (∀ (oracle : CompatibilityOracle) (size : ℕ × ℕ) (stack : List Coordinates)
      (wf : Wavefunction), WellFormed size wf → (∀ c ∈ stack, inB size c) →
      propagateAux oracle size (totalCount wf + stack.length + 1) stack wf ≠ none) ∧
    (∀ (noise : ℕ → Coordinates → ℚ) (draws : ℕ → ℚ) (k : ℕ) (m : Model),
      WellFormed m.output_size m.wavefunction →
      Model.runAux noise draws k (m.output_size.1 * m.output_size.2) m ≠
        RunOutcome.fuelOut) := by
  constructor
  · intro oracle size stack wf hwf hstack
    exact propagateAux_ne_none oracle size _ stack wf hwf hstack (by omega)
  · intro noise draws k m hwf
    apply runAux_ne_fuelOut
    · exact hwf
    · calc uncollapsedCount m.output_size m.wavefunction
          ≤ (gridCells m.output_size).length := List.length_filter_le _ _
        _ = m.output_size.2 * m.output_size.1 := gridCells_length m.output_size
        _ ≤ m.output_size.1 * m.output_size.2 := by rw [Nat.mul_comm]

/-- The oracle of the spec's concrete 1×2 scenario. -/
def oracle9 : CompatibilityOracle := ⟨{("X", "Y", RIGHT), ("Y", "X", LEFT)}⟩

/-- The model of the spec's concrete 1×2 scenario. -/
def model9 : Model := Model.init (2, 1) [("X", 1), ("Y", 1)] oracle9

/-- C4 witness: concrete termination of propagate and run on a 1×2 grid. -/
theorem claim_C4_witness :
    propagateAux oracle9 (2, 1) (totalCount model9.wavefunction + 1 + 1) [(0, 0)]
        model9.wavefunction ≠ none ∧
    Model.runAux (fun _ _ => 0) (fun _ => 0) 0 (2 * 1) model9 ≠ RunOutcome.fuelOut := by
  constructor
  · exact claim_C4_termination.1 oracle9 (2, 1) [(0, 0)] model9.wavefunction
      (by decide) (by decide)
  · exact claim_C4_termination.2 (fun _ _ => 0) (fun _ => 0) 0 model9 (by decide)

/-! ### The final grid read-out -/

theorem Wavefunction.get_collapsed_some {wf : Wavefunction} {co : Coordinates} {t : Tile}
    (h : wf.get_collapsed co = some t) : wf.get co = {t} := by
  unfold Wavefunction.get_collapsed at h
  split at h
  case isTrue h1 =>
    obtain ⟨a, ha⟩ := Finset.card_eq_one.mp h1
    rw [Option.some_inj] at h
    have hmem : t ∈ wf.get co := h ▸ Finset.min'_mem _ _
    rw [ha] at hmem
    rw [ha, Finset.mem_singleton.mp hmem]
  case isFalse => exact absurd h (by simp)

theorem option_mapM_spec {α β : Type} (f : α → Option β) :
    ∀ (l : List α) (res : List β), l.mapM f = some res →
      res.length = l.length ∧
      ∀ i (hi : i < l.length) (hri : i < res.length),
        f (l.get ⟨i, hi⟩) = some (res.get ⟨i, hri⟩) := by
  intro l
  induction l with
  | nil =>
    intro res h
    rw [List.mapM_nil] at h
    have hres : res = [] := by
      cases res with
      | nil => rfl
      | cons b bs => simp [pure] at h
    subst hres
    refine ⟨rfl, ?_⟩
    intro i hi hri
    simp at hi
  | cons x xs ih =>
    intro res h
    rw [List.mapM_cons] at h
    cases hx : f x with
    | none => rw [hx] at h; simp at h
    | some b =>
      rw [hx] at h
      cases hxs : xs.mapM f with
      | none => rw [hxs] at h; simp at h
      | some bs =>
        rw [hxs] at h
        simp only [Option.bind_eq_bind, Option.bind_some] at h
        have hres : res = b :: bs := by
          cases res with
          | nil => simp [pure] at h
          | cons c cs =>
            simp [pure] at h
            simp [h.1, h.2]
        subst hres
        obtain ⟨hlen, hget⟩ := ih bs hxs
        refine ⟨by simp [hlen], ?_⟩
        intro i hi hri
        cases i with
        | zero => simpa using hx
        | succ n =>
          have hn : n < xs.length := by simpa using Nat.lt_of_succ_lt_succ hi
          have hrn : n < bs.length := by simpa using Nat.lt_of_succ_lt_succ hri
          simpa using hget n hn hrn

theorem get_all_collapsed_spec {size : ℕ × ℕ} {wf : Wavefunction} {g : List (List Tile)}
    (hwf : WellFormed size wf) (h : wf.get_all_collapsed = some g) :
    ∀ y x, y < size.2 → x < size.1 →
      wf.get ((y : ℤ), (x : ℤ)) = {(g.getD y []).getD x ""} := by
  unfold Wavefunction.get_all_collapsed at h
  split at h
  case h_1 heq => exact absurd h (by simp)
  case h_2 row0 rest heq =>
    intro y x hy hx
    obtain ⟨hlen, hget⟩ := option_mapM_spec _ _ _ h
    have hmlen : wf.coefficient_matrix.length = size.2 := hwf.1
    have hrow0 : row0.length = size.1 := hwf.2 row0 (by rw [heq]; simp)
    have hy' : y < (List.range wf.coefficient_matrix.length).length := by simp [hmlen]; omega
    have hyg : y < g.length := by rw [hlen]; exact hy'
    have hinner := hget y hy' hyg
    rw [List.get_eq_getElem, List.getElem_range] at hinner
    obtain ⟨hlen2, hget2⟩ := option_mapM_spec _ _ _ hinner
    have hx' : x < (List.range row0.length).length := by simp [hrow0]; omega
    have hxg : x < (g.get ⟨y, hyg⟩).length := by rw [hlen2]; exact hx'
    have hcell := hget2 x hx' hxg
    rw [List.get_eq_getElem, List.getElem_range] at hcell
    have hval := Wavefunction.get_collapsed_some hcell
    have e1 : g.getD y [] = g.get ⟨y, hyg⟩ := by
      rw [List.getD_eq_getElem?_getD, List.getElem?_eq_getElem hyg]
      rfl
    have e2 : (g.get ⟨y, hyg⟩).getD x "" = (g.get ⟨y, hyg⟩).get ⟨x, hxg⟩ := by
      rw [List.getD_eq_getElem?_getD, List.getElem?_eq_getElem hxg]
      rfl
    rw [e1, e2]
    exact hval

theorem runAux_of_full {m : Model} (hm : m.wavefunction.is_fully_collapsed = true)
    (noise : ℕ → Coordinates → ℚ) (draws : ℕ → ℚ) (k fuel : ℕ) :
    Model.runAux noise draws k fuel m = finishRun m := by
  cases fuel <;> (unfold Model.runAux; rw [if_pos hm])

/-- Through the whole run loop, every arc is either enforced or its source
cell is still untouched (holds the full universe U). -/
theorem runAux_done_arc (noise : ℕ → Coordinates → ℚ) (draws : ℕ → ℚ) (U : Coefficients) :
    ∀ (fuel k : ℕ) (m : Model) (g : List (List Tile)),
      WellFormed m.output_size m.wavefunction →
      (∀ c d, inB m.output_size c → d ∈ valid_dirs c m.output_size →
        Arc m.compatibility_oracle m.wavefunction c d ∨ m.wavefunction.get c = U) →
      Model.runAux noise draws k fuel m = RunOutcome.done g →
      ∃ wfF : Wavefunction, WellFormed m.output_size wfF ∧
        wfF.get_all_collapsed = some g ∧
        (∀ c d, inB m.output_size c → d ∈ valid_dirs c m.output_size →
          Arc m.compatibility_oracle wfF c d ∨ wfF.get c = U) := by
  intro fuel
  induction fuel with
  | zero =>
    intro k m g hwf hinv hrun
    unfold Model.runAux at hrun
    split at hrun
    case isTrue =>
      unfold finishRun at hrun
      split at hrun
      case h_1 g' heq =>
        rw [RunOutcome.done.injEq] at hrun
        exact ⟨m.wavefunction, hwf, hrun ▸ heq, hinv⟩
      case h_2 => exact absurd hrun (by simp)
    case isFalse => exact absurd hrun (by simp)
  | succ f ih =>
    intro k m g hwf hinv hrun
    unfold Model.runAux at hrun
    split at hrun
    case isTrue =>
      unfold finishRun at hrun
      split at hrun
      case h_1 g' heq =>
        rw [RunOutcome.done.injEq] at hrun
        exact ⟨m.wavefunction, hwf, hrun ▸ heq, hinv⟩
      case h_2 => exact absurd hrun (by simp)
    case isFalse hnf =>
      split at hrun
      case h_1 => exact absurd hrun (by simp)
      case h_2 m1 hit =>
        obtain ⟨hsize, horacle, hweights, hwf1x, hmono, co, wf1, chosen, hme, hcol, hco, hwch,
          hwf1eq, hprop⟩ := Model.iterate_spec hwf hit
        have hwf1 : WellFormed m.output_size wf1 :=
          hwf1eq ▸ wellFormed_setCell hwf co {chosen}
        have hmono1 : ∀ q, wf1.get q ⊆ m.wavefunction.get q := Wavefunction.collapse_mono hcol
        have hinv1 : ∀ c d, inB m.output_size c → d ∈ valid_dirs c m.output_size →
            Arc m.compatibility_oracle wf1 c d ∨ wf1.get c = U ∨ c ∈ [co] := by
          intro c d hcB hd
          by_cases hcc : c = co
          · exact Or.inr (Or.inr (by rw [hcc]; exact List.mem_singleton_self co))
          · have hc_get : wf1.get c = m.wavefunction.get c := by
              rw [hwf1eq]
              exact m.wavefunction.get_setCell_of_ne co {chosen} c hcc
            rcases hinv c d hcB hd with ha | hu
            · left
              intro t ht
              obtain ⟨s, hs, hchk⟩ := ha t (hmono1 _ ht)
              refine ⟨s, ?_, hchk⟩
              rw [hc_get]
              exact hs
            · exact Or.inr (Or.inl (by rw [hc_get, hu]))
        have hinvm1 := propagateAux_arc m.compatibility_oracle m.output_size U
          (totalCount wf1 + 2) [co] wf1 m1.wavefunction hwf1
          (by intro c hc; rw [List.mem_singleton] at hc; exact hc ▸ hco) hinv1 hprop
        have hwfm1 : WellFormed m1.output_size m1.wavefunction := by
          rw [hsize]; exact hwf1x
        have hinvm1' : ∀ c d, inB m1.output_size c → d ∈ valid_dirs c m1.output_size →
            Arc m1.compatibility_oracle m1.wavefunction c d ∨ m1.wavefunction.get c = U := by
          rw [hsize, horacle]
          exact hinvm1
        obtain ⟨wfF, hwfF, hgall, hinvF⟩ := ih (k + 1) m1 g hwfm1 hinvm1' hrun
        rw [horacle] at hinvF
        rw [hsize] at hwfF hinvF
        exact ⟨wfF, hwfF, hgall, hinvF⟩

/-- C1 (counterexample): a 1×2 run with the single-tile universe {X} and an
EMPTY compatibility relation returns [[X, X]] without any contradiction, yet
(X, X, RIGHT) is not in the relation: the grid is already fully collapsed at
construction and run() never consults the oracle. -/
theorem claim_C1_counterexample :
    Model.runAux (fun _ _ => 0) (fun _ => 0) 0 0 (Model.init (2, 1) [("X", 1)] ⟨∅⟩) =
      RunOutcome.done [["X", "X"]] ∧
    RIGHT ∈ valid_dirs (0, 0) (2, 1) ∧
    CompatibilityOracle.check ⟨∅⟩ "X" "X" RIGHT = false := by
  refine ⟨by decide, by decide, by decide⟩

/-- C1 (amended): provided the tile universe holds at least two distinct
tiles, every pair of adjacent cells of a grid returned by run() satisfies the
compatibility relation.  (With fewer than two tiles every cell is already
collapsed at construction and the grid is returned without any check, as the
counterexample shows; a run that aborts with a contradiction returns no grid
and is excluded by the hypothesis.) -/
theorem claim_C1_local_consistency (w hgt : ℕ) (weights : Weights)
    (oracle : CompatibilityOracle) (noise : ℕ → Coordinates → ℚ) (draws : ℕ → ℚ)
    (k fuel : ℕ) (g : List (List Tile))
    (hcard : 2 ≤ (weights.map Prod.fst).toFinset.card)
    (hrun : Model.runAux noise draws k fuel (Model.init (w, hgt) weights oracle) =
      RunOutcome.done g) :
    ∀ (y x : ℕ) (d : Direction), y < hgt → x < w →
      d ∈ valid_dirs ((y : ℤ), (x : ℤ)) (w, hgt) →
      ((g.getD y []).getD x "",
       (g.getD ((y : ℤ) + d.1).toNat []).getD ((x : ℤ) + d.2).toNat "", d) ∈ oracle.data := by
  have hwf0 : WellFormed (Model.init (w, hgt) weights oracle).output_size
      (Model.init (w, hgt) weights oracle).wavefunction := wellFormed_init (w, hgt) weights
  have hinv0 : ∀ c d, inB (Model.init (w, hgt) weights oracle).output_size c →
      d ∈ valid_dirs c (Model.init (w, hgt) weights oracle).output_size →
      Arc (Model.init (w, hgt) weights oracle).compatibility_oracle
        (Model.init (w, hgt) weights oracle).wavefunction c d ∨
      (Model.init (w, hgt) weights oracle).wavefunction.get c =
        (weights.map Prod.fst).toFinset := by
    intro c d hc _
    exact Or.inr (get_init weights hc)
  obtain ⟨wfF, hwfF, hgall, hinvF⟩ := runAux_done_arc noise draws
    ((weights.map Prod.fst).toFinset) fuel k (Model.init (w, hgt) weights oracle) g
    hwf0 hinv0 hrun
  intro y x d hy hx hd
  have hcB : inB (w, hgt) ((y : ℤ), (x : ℤ)) := ⟨by omega, by omega, by omega, by omega⟩
  have hnbB : 0 ≤ (y : ℤ) + d.1 ∧ (y : ℤ) + d.1 < (hgt : ℤ) ∧
      0 ≤ (x : ℤ) + d.2 ∧ (x : ℤ) + d.2 < (w : ℤ) := valid_dirs_inB hcB hd
  have hc_eq := get_all_collapsed_spec hwfF hgall y x hy hx
  rcases hinvF ((y : ℤ), (x : ℤ)) d hcB hd with ha | hu
  · obtain ⟨hb1, hb2, hb3, hb4⟩ := hnbB
    have hyx : (((((y : ℤ) + d.1).toNat : ℕ) : ℤ), ((((x : ℤ) + d.2).toNat : ℕ) : ℤ)) =
        ((y : ℤ) + d.1, (x : ℤ) + d.2) :=
      Prod.ext (by dsimp only; omega) (by dsimp only; omega)
    have hyn : ((y : ℤ) + d.1).toNat < hgt := by omega
    have hxn : ((x : ℤ) + d.2).toNat < w := by omega
    have hn_eq := get_all_collapsed_spec hwfF hgall ((y : ℤ) + d.1).toNat
      ((x : ℤ) + d.2).toNat hyn hxn
    rw [hyx] at hn_eq
    have hb : (g.getD ((y : ℤ) + d.1).toNat []).getD ((x : ℤ) + d.2).toNat "" ∈
        wfF.get ((y : ℤ) + d.1, (x : ℤ) + d.2) := by
      rw [hn_eq]
      exact Finset.mem_singleton_self _
    obtain ⟨s, hs, hchk⟩ := ha _ hb
    rw [hc_eq, Finset.mem_singleton] at hs
    have hmem := of_decide_eq_true hchk
    rw [← hs]
    exact hmem
  · exfalso
    rw [hc_eq] at hu
    have hone := congrArg Finset.card hu
    rw [Finset.card_singleton] at hone
    omega

end WFC

namespace WFC

/-! ### The concrete 1×2 scenario -/

theorem min_entropy9 (noise' : Coordinates → ℚ) :
    model9.min_entropy_co_ords noise' = some (0, 0) ∨
    model9.min_entropy_co_ords noise' = some (0, 1) := by
  unfold Model.min_entropy_co_ords
  dsimp only
  rw [if_neg (by decide)]
  have hcells : gridCells model9.output_size = [(0, 0), (0, 1)] := by decide
  rw [hcells, List.foldl_cons, List.foldl_cons, List.foldl_nil]
  have h1 : minEntropyStep model9.wavefunction noise' ((0, 0), none) (0, 0) =
      ((0, 0), some (noise' (0, 0))) := by
    unfold minEntropyStep
    rw [if_neg (by decide)]
  rw [h1]
  have h2 : minEntropyStep model9.wavefunction noise' ((0, 0), some (noise' (0, 0))) (0, 1) =
      if noise' (0, 1) < noise' (0, 0) then ((0, 1), some (noise' (0, 1)))
      else ((0, 0), some (noise' (0, 0))) := by
    unfold minEntropyStep
    rw [if_neg (by decide)]
  rw [h2]
  by_cases hlt : noise' (0, 1) < noise' (0, 0)
  · rw [if_pos hlt]
    exact Or.inr rfl
  · rw [if_neg hlt]
    exact Or.inl rfl

theorem collapse9_cases (r : ℚ) (co : Coordinates) (hco : co = (0, 0) ∨ co = (0, 1)) :
    model9.wavefunction.collapse r co = some (model9.wavefunction.setCell co {"X"}) ∨
    model9.wavefunction.collapse r co = some (model9.wavefunction.setCell co {"Y"}) := by
  have hfil : filteredWeights model9.wavefunction co = [("X", 1), ("Y", 1)] := by
    rcases hco with rfl | rfl <;> decide
  rw [Wavefunction.collapse_def, hfil]
  dsimp only
  have hmem : walkChoose (r * ((totalW model9.wavefunction co : ℕ) : ℚ))
      [("X", 1), ("Y", 1)] "X" = "X" ∨
      walkChoose (r * ((totalW model9.wavefunction co : ℕ) : ℚ))
      [("X", 1), ("Y", 1)] "X" = "Y" := by
    rcases walkChoose_mem (r * ((totalW model9.wavefunction co : ℕ) : ℚ))
      [("X", 1), ("Y", 1)] "X" with hc | hc
    · exact Or.inl hc
    · simpa using hc
  rcases hmem with hc | hc
  · rw [hc]
    exact Or.inl rfl
  · rw [hc]
    exact Or.inr rfl

theorem iterate9 (noise' : Coordinates → ℚ) (r : ℚ) :
    model9.iterate noise' r =
      some ⟨(2, 1), oracle9, Wavefunction.mk [[{"X"}, {"Y"}]] [("X", 1), ("Y", 1)]⟩ ∨
    model9.iterate noise' r =
      some ⟨(2, 1), oracle9, Wavefunction.mk [[∅, ∅]] [("X", 1), ("Y", 1)]⟩ := by
  unfold Model.iterate
  rcases min_entropy9 noise' with hme | hme <;> rw [hme] <;> dsimp only <;>
    [rcases collapse9_cases r (0, 0) (Or.inl rfl) with hcol | hcol;
     rcases collapse9_cases r (0, 1) (Or.inr rfl) with hcol | hcol] <;>
    rw [hcol] <;> dsimp only <;>
    first
      | exact Or.inl (by decide)
      | exact Or.inr (by decide)

/-- C9 (counterexample): with the draw 3/4 at the first collapse, cell (0,0)
collapses to Y, propagation empties cell (0,1), and the run raises instead of
returning a grid — refuting "for every random draw sequence run() returns a
grid ...". -/
theorem claim_C9_counterexample :
    Model.runAux (fun _ _ => 0) (fun _ => (3 : ℚ) / 4) 0 2 model9 = RunOutcome.err ∧
    ∀ g : List (List Tile), RunOutcome.err ≠ RunOutcome.done g := by
  constructor
  · unfold Model.runAux
    rw [if_neg (by decide)]
    have hme : model9.min_entropy_co_ords ((fun _ (_ : Coordinates) => (0 : ℚ)) 0) =
        some (0, 0) := by decide
    have hcol : model9.wavefunction.collapse ((3 : ℚ) / 4) (0, 0) =
        some (model9.wavefunction.setCell (0, 0) {"Y"}) := by
      rw [Wavefunction.collapse_def]
      have hfil : filteredWeights model9.wavefunction (0, 0) = [("X", 1), ("Y", 1)] := by decide
      rw [hfil]
      dsimp only
      have htot : totalW model9.wavefunction (0, 0) = 2 := by decide
      rw [htot]
      have hw : walkChoose ((3 : ℚ) / 4 * ((2 : ℕ) : ℚ)) [("X", 1), ("Y", 1)] "X" = "Y" := by
        unfold walkChoose
        rw [if_neg (by norm_num)]
        unfold walkChoose
        rw [if_pos (by norm_num)]
      rw [hw]
    have hit : model9.iterate ((fun _ (_ : Coordinates) => (0 : ℚ)) 0)
        ((fun _ => (3 : ℚ) / 4) 0) =
        some ⟨(2, 1), oracle9, Wavefunction.mk [[∅, ∅]] [("X", 1), ("Y", 1)]⟩ := by
      unfold Model.iterate
      rw [hme]
      dsimp only
      rw [hcol]
      dsimp only
      decide
    rw [hit]
    dsimp only
    rw [runAux_of_full (by decide)]
    decide
  · intro g
    simp

/-- C9 (amended): on the 1×2 grid with oracle {(X, Y, RIGHT), (Y, X, LEFT)}
and weights {X:1, Y:1}, for every random draw sequence, IF run() returns a
grid (it may instead abort with a contradiction, as the counterexample
shows), that grid holds (X, Y) or (Y, X) in some order — never (X, X) or
(Y, Y). -/
theorem claim_C9_scenario (noise : ℕ → Coordinates → ℚ) (draws : ℕ → ℚ) (k fuel : ℕ)
    (g : List (List Tile)) (hrun : Model.runAux noise draws k fuel model9 = RunOutcome.done g) :
    g = [["X", "Y"]] ∨ g = [["Y", "X"]] := by
  cases fuel with
  | zero =>
    unfold Model.runAux at hrun
    rw [if_neg (by decide)] at hrun
    exact absurd hrun (by simp)
  | succ f =>
    unfold Model.runAux at hrun
    rw [if_neg (by decide)] at hrun
    rcases iterate9 (noise k) (draws k) with hit | hit <;>
      rw [hit] at hrun <;> dsimp only at hrun
    · rw [runAux_of_full (by decide)] at hrun
      have hfin : finishRun ⟨(2, 1), oracle9,
          Wavefunction.mk [[{"X"}, {"Y"}]] [("X", 1), ("Y", 1)]⟩ =
          RunOutcome.done [["X", "Y"]] := by decide
      rw [hfin] at hrun
      exact Or.inl (RunOutcome.done.inj hrun).symm
    · rw [runAux_of_full (by decide)] at hrun
      have hfin : finishRun ⟨(2, 1), oracle9,
          Wavefunction.mk [[∅, ∅]] [("X", 1), ("Y", 1)]⟩ = RunOutcome.err := by decide
      rw [hfin] at hrun
      exact absurd hrun (by simp)

/-- A fully evaluated successful run of the 1×2 scenario (zero noise, zero
draws): the two collapse-free claims below instantiate their theorems on it. -/
theorem run9_eval0 :
    Model.runAux (fun _ _ => 0) (fun _ => 0) 0 2 model9 = RunOutcome.done [["X", "Y"]] := by
  unfold Model.runAux
  rw [if_neg (by decide)]
  have hme : model9.min_entropy_co_ords ((fun _ (_ : Coordinates) => (0 : ℚ)) 0) =
      some (0, 0) := by decide
  have hcol : model9.wavefunction.collapse ((0 : ℚ)) (0, 0) =
      some (model9.wavefunction.setCell (0, 0) {"X"}) := by
    rw [Wavefunction.collapse_def]
    have hfil : filteredWeights model9.wavefunction (0, 0) = [("X", 1), ("Y", 1)] := by decide
    rw [hfil]
    dsimp only
    have hw : walkChoose ((0 : ℚ) * ((totalW model9.wavefunction (0, 0) : ℕ) : ℚ))
        [("X", 1), ("Y", 1)] "X" = "X" := by
      rw [zero_mul]
      unfold walkChoose
      rw [if_pos (by norm_num)]
    rw [hw]
  have hit : model9.iterate ((fun _ (_ : Coordinates) => (0 : ℚ)) 0) ((fun _ => (0 : ℚ)) 0) =
      some ⟨(2, 1), oracle9, Wavefunction.mk [[{"X"}, {"Y"}]] [("X", 1), ("Y", 1)]⟩ := by
    unfold Model.iterate
    rw [hme]
    dsimp only
    rw [hcol]
    dsimp only
    decide
  rw [hit]
  dsimp only
  rw [runAux_of_full (by decide)]
  decide

/-- C1 witness: a successful two-tile run; its one adjacency (X at (0,0),
Y at (0,1), direction RIGHT) is in the relation by the theorem. -/
theorem claim_C1_witness :
    (([["X", "Y"]].getD 0 []).getD 0 "",
     ([["X", "Y"]].getD ((0 : ℤ) + RIGHT.1).toNat []).getD ((0 : ℤ) + RIGHT.2).toNat "",
     RIGHT) ∈ oracle9.data :=
  claim_C1_local_consistency 2 1 [("X", 1), ("Y", 1)] oracle9 (fun _ _ => 0) (fun _ => 0)
    0 2 [["X", "Y"]] (by decide) run9_eval0 0 0 RIGHT (by decide) (by decide) (by decide)

/-- C9 witness: the amended claim applied to the fully evaluated run. -/
theorem claim_C9_witness :
    [["X", "Y"]] = [["X", "Y"]] ∨ [["X", "Y"]] = [["Y", "X"]] :=
  claim_C9_scenario (fun _ _ => 0) (fun _ => 0) 0 2 [["X", "Y"]] run9_eval0

/-- C3 witness at a concrete state: constraining away tile B at (0,0). -/
theorem claim_C3_witness :
    (Wavefunction.mk [[{"A"}, {"A", "B"}]] [("A", 2), ("B", 1)]).get (0, 0) ⊆
        (Wavefunction.init (2, 1) [("A", 2), ("B", 1)]).get (0, 0) ∧
      ((Wavefunction.mk [[{"A"}, {"A", "B"}]] [("A", 2), ("B", 1)]).get (0, 0)).card ≤
        ((Wavefunction.init (2, 1) [("A", 2), ("B", 1)]).get (0, 0)).card :=
  claim_C3_monotonic [WfOp.constrainOp (0, 0) "B"]
    (Wavefunction.init (2, 1) [("A", 2), ("B", 1)])
    (Wavefunction.mk [[{"A"}, {"A", "B"}]] [("A", 2), ("B", 1)]) (by decide) (0, 0)

/-- C5 witness at a concrete state: collapsing cell (0,0) with draw r = 0. -/
theorem claim_C5_witness :
    ∃ wf' chosen,
      (Wavefunction.init (2, 1) [("A", 2), ("B", 1)]).collapse 0 (0, 0) = some wf' ∧
      chosen ∈ (Wavefunction.init (2, 1) [("A", 2), ("B", 1)]).get (0, 0) ∧
      wf'.get (0, 0) = {chosen} ∧
      (∀ co', co' ≠ (0, 0) →
        wf'.get co' = (Wavefunction.init (2, 1) [("A", 2), ("B", 1)]).get co') ∧
      ∃ i, ∃ hi : i < (filteredWeights (Wavefunction.init (2, 1) [("A", 2), ("B", 1)])
          (0, 0)).length,
        chosen = ((filteredWeights (Wavefunction.init (2, 1) [("A", 2), ("B", 1)])
          (0, 0)).get ⟨i, hi⟩).1 ∧
        0 * ((totalW (Wavefunction.init (2, 1) [("A", 2), ("B", 1)]) (0, 0) : ℕ) : ℚ) <
          (prefixW (filteredWeights (Wavefunction.init (2, 1) [("A", 2), ("B", 1)]) (0, 0))
            (i + 1) : ℚ) ∧
        ∀ j < i, ¬ (0 * ((totalW (Wavefunction.init (2, 1) [("A", 2), ("B", 1)])
            (0, 0) : ℕ) : ℚ) <
          (prefixW (filteredWeights (Wavefunction.init (2, 1) [("A", 2), ("B", 1)]) (0, 0))
            (j + 1) : ℚ)) :=
  claim_C5_collapse (Wavefunction.init (2, 1) [("A", 2), ("B", 1)]) 0 (0, 0)
    (by decide) (by decide) (by decide) (by decide) (by decide)

/-- C6 witness at a concrete state: the fresh 1×2 model, constant noise. -/
theorem claim_C6_witness :
    ((∃ q ∈ gridCells model9.output_size, (model9.wavefunction.get q).card ≠ 1) →
      (model9.wavefunction.get (0, 0)).card ≠ 1) ∧
    ((∀ q ∈ gridCells model9.output_size, (model9.wavefunction.get q).card = 1) →
      ((0, 0) : Coordinates) = (0, 0)) :=
  claim_C6_min_entropy model9 (fun _ => 0) (0, 0) (by decide)

/-- C7 witness at a concrete state: removing a present and an absent tile. -/
theorem claim_C7_witness :
    ((Wavefunction.init (2, 1) [("A", 2), ("B", 1)]).constrain (0, 0) "C" = none) ∧
    ∃ wf', (Wavefunction.init (2, 1) [("A", 2), ("B", 1)]).constrain (0, 0) "B" = some wf' ∧
      wf'.get (0, 0) =
        ((Wavefunction.init (2, 1) [("A", 2), ("B", 1)]).get (0, 0)).erase "B" ∧
      ∀ co', co' ≠ (0, 0) →
        wf'.get co' = (Wavefunction.init (2, 1) [("A", 2), ("B", 1)]).get co' :=
  ⟨(claim_C7_constrain (Wavefunction.init (2, 1) [("A", 2), ("B", 1)]) (0, 0) "C").1.mpr
      (by decide),
    (claim_C7_constrain (Wavefunction.init (2, 1) [("A", 2), ("B", 1)]) (0, 0) "B").2
      (by decide)⟩

/-- C8 witness at a concrete cell of a 2-wide, 1-high grid. -/
theorem claim_C8_witness :
    (∀ d ∈ valid_dirs (0, 0) (2, 1), inB (2, 1) ((0 : ℤ) + d.1, (0 : ℤ) + d.2)) ∧
    (UP ∈ valid_dirs (0, 0) (2, 1) ↔ (0 : ℤ) < ((1 : ℕ) : ℤ) - 1) ∧
    (DOWN ∈ valid_dirs (0, 0) (2, 1) ↔ (0 : ℤ) < 0) ∧
    (LEFT ∈ valid_dirs (0, 0) (2, 1) ↔ (0 : ℤ) < 0) ∧
    (RIGHT ∈ valid_dirs (0, 0) (2, 1) ↔ (0 : ℤ) < ((2 : ℕ) : ℤ) - 1) :=
  claim_C8_valid_dirs (0, 0) (2, 1) (by decide)

/-- C10 witness at a concrete state after one constrain step. -/
theorem claim_C10_witness :
    (inB (2, 1) (0, 0) →
      (Wavefunction.init (2, 1) [("A", 2), ("B", 1)]).get (0, 0) =
        ([("A", 2), ("B", 1)].map (Prod.fst : Tile × ℕ → Tile)).toFinset) ∧
    (Wavefunction.mk [[{"A"}, {"A", "B"}]] [("A", 2), ("B", 1)]).get (0, 0) ⊆
      ([("A", 2), ("B", 1)].map (Prod.fst : Tile × ℕ → Tile)).toFinset ∧
    (∀ t ∈ (Wavefunction.mk [[{"A"}, {"A", "B"}]] [("A", 2), ("B", 1)]).get (0, 0),
      ([("A", 2), ("B", 1)].lookup t).isSome) :=
  claim_C10_universe (2, 1) [("A", 2), ("B", 1)] [WfOp.constrainOp (0, 0) "B"]
    (Wavefunction.mk [[{"A"}, {"A", "B"}]] [("A", 2), ("B", 1)]) (by decide) (0, 0)

end WFC
